import Mathlib

/-! ## krpn/stable: the mutation engine of the in-memory string table

A shallow embedding of `stable.go`, `validators.go` and `package.go`.

Modelling conventions.

* A Go `map[string]string` is a finite map from `String` to `String` with
  extensional (and decidable) equality, which is what `reflect.DeepEqual`
  computes on two non-nil maps. A nil map and an empty map are identified: Go
  tells them apart in `reflect.DeepEqual` and in the `row == nil` test of
  `SelectAny`, and both only see rows that passed the primary-key validators,
  which no empty map does; for the same reason no write goes to a nil map,
  which would panic. The nil result of `selectAny` is `none`.
* Maps are values. `getRowsCopy` is therefore the identity, and a caller (or
  a trigger) mutating a map after handing it over is outside the model.
* A Go `error` is its message; `nil` is `none`.
* The read/write lock is not modelled: every method is one atomic step.
* A trigger is an external collaborator with side effects. The table keeps a
  trace of every `Handle` call it made (`stable.calls`), and the answer of a
  trigger may depend on that trace.
-/

namespace Stable

/-- A row of the table: Go `map[string]string`. -/
abbrev Row := Finmap (fun _ : String => String)

/-- The row holding exactly the listed fields (a Go map literal; a later
duplicate of a key is ignored). -/
def Row.ofList (l : List (String × String)) : Row :=
  List.toFinmap (l.map fun p => (⟨p.1, p.2⟩ : Sigma fun _ : String => String))

/-- Go `row[field]`: the value stored under `field`, the zero value `""` when
the key is absent. -/
def Row.val (row : Row) (field : String) : String :=
  (Finmap.lookup field row).getD ""

/-- The loop `for field, value := range src { dst[field] = value }`: every field
of `src` is written over `dst`, the other fields of `dst` are kept. -/
def Row.assign (dst src : Row) : Row :=
  src ∪ dst

/-! ## validators.go -/

/-- The two implementations of the `validator` interface. -/
inductive validator where
  | valueEmptyValidator (field : String)
  | valueDuplicatesValidator (field : String)
deriving DecidableEq, Repr

/-- Constructor `newValueEmptyValidator`. -/
def newValueEmptyValidator (field : String) : validator :=
  validator.valueEmptyValidator field

/-- Constructor `newValueDuplicatesValidator`. -/
def newValueDuplicatesValidator (field : String) : validator :=
  validator.valueDuplicatesValidator field

/-- Message `fmt.Errorf("empty value for field \"%v\"", f.field)`. -/
def emptyValueError (field : String) : String :=
  "empty value for field \"" ++ field ++ "\""

/-- Message `fmt.Errorf("duplicate value \"%v\" for field \"%v\"", value, f.field)`. -/
def duplicateValueError (value field : String) : String :=
  "duplicate value \"" ++ value ++ "\" for field \"" ++ field ++ "\""

/-- Method `(*valueEmptyValidator).isValid`. -/
def valueEmptyValidator.isValid (field : String) : List Row → Option String
  | [] => none
  | row :: rows =>
    if Row.val row field = "" then some (emptyValueError field)
    else valueEmptyValidator.isValid field rows

/-- The loop of `(*valueDuplicatesValidator).isValid`; `find` is the set of
values seen so far. -/
def valueDuplicatesValidator.loop (field : String) : List String → List Row → Option String
  | _, [] => none
  | find, row :: rows =>
    if Row.val row field = "" then valueDuplicatesValidator.loop field find rows
    else if Row.val row field ∈ find then some (duplicateValueError (Row.val row field) field)
    else valueDuplicatesValidator.loop field (Row.val row field :: find) rows

/-- Method `(*valueDuplicatesValidator).isValid`. -/
def valueDuplicatesValidator.isValid (field : String) (rows : List Row) : Option String :=
  valueDuplicatesValidator.loop field [] rows

/-- Interface method `validator.isValid`, dispatched on the implementation. -/
def validator.isValid : validator → List Row → Option String
  | validator.valueEmptyValidator field, rows => valueEmptyValidator.isValid field rows
  | validator.valueDuplicatesValidator field, rows => valueDuplicatesValidator.isValid field rows

/-! ## package.go -/

/-- Constant `OperationInsert`. -/
def OperationInsert : Nat := 0

/-- Constant `OperationUpdate`. -/
def OperationUpdate : Nat := 1

/-- Constant `OperationDelete`. -/
def OperationDelete : Nat := 2

/-- One `Handle` call made by the table: which trigger (by registration index),
with which arguments, and what the trigger answered. -/
structure HandleCall where
  trigger : Nat
  operation : Nat
  new : Option Row
  old : Option Row
  err : Option String
deriving DecidableEq

/-- The `Trigger` interface. `Handle` gets the trace of the calls made so far
(the state its side effects may have built up) and the three Go arguments. -/
structure Trigger where
  Handle : List HandleCall → Nat → Option Row → Option Row → Option String

/-- The error `sql.ErrNoRows` of the standard library. -/
def ErrNoRows : String := "sql: no rows in result set"

/-! ## stable.go -/

/-- The struct `stable`; `calls` is the trace of `Handle` calls made so far. -/
structure stable where
  primaryKeyField : String
  rows : List Row
  validators : List validator
  triggers : List Trigger
  calls : List HandleCall

/-- The loop of `validateRows` over the validators. -/
def validateRowsLoop (rows : List Row) : List validator → Option String
  | [] => none
  | v :: vs =>
    match v.isValid rows with
    | some err => some err
    | none => validateRowsLoop rows vs

/-- Method `(*stable).validateRows`. -/
def stable.validateRows (st : stable) (rows : List Row) : Option String :=
  validateRowsLoop rows st.validators

/-- Method `(*stable).getRowsCopy`. -/
def stable.getRowsCopy (st : stable) : List Row :=
  st.rows

/-- The loop of `runTriggersForRow`; `i` is the index of the next trigger. -/
def runTriggersForRowLoop (operation : Nat) (new old : Option Row) :
    Nat → List Trigger → List HandleCall → List HandleCall × Option String
  | _, [], calls => (calls, none)
  | i, trigger :: rest, calls =>
    match trigger.Handle calls operation new old with
    | some err => (calls ++ [⟨i, operation, new, old, some err⟩], some err)
    | none =>
      runTriggersForRowLoop operation new old (i + 1) rest
        (calls ++ [⟨i, operation, new, old, none⟩])

/-- Method `(*stable).runTriggersForRow`. -/
def stable.runTriggersForRow (st : stable) (calls : List HandleCall) (operation : Nat)
    (new old : Option Row) : List HandleCall × Option String :=
  runTriggersForRowLoop operation new old 0 st.triggers calls

/-- Method `(*stable).runTriggersForNewRow`, by recursion on `old`. -/
def stable.runTriggersForNewRow (st : stable) (calls : List HandleCall) (newRow : Row) :
    List Row → List HandleCall × Option String
  | [] => st.runTriggersForRow calls OperationInsert (some newRow) none
  | oldRow :: old =>
    if Row.val oldRow st.primaryKeyField ≠ Row.val newRow st.primaryKeyField then
      st.runTriggersForNewRow calls newRow old
    else if newRow = oldRow then (calls, none)
    else st.runTriggersForRow calls OperationUpdate (some newRow) (some oldRow)

/-- Method `(*stable).runInsertUpdateTriggers`, by recursion on `new`. -/
def stable.runInsertUpdateTriggers (st : stable) (old : List Row) :
    List HandleCall → List Row → List HandleCall × Option String
  | calls, [] => (calls, none)
  | calls, newRow :: new =>
    match st.runTriggersForNewRow calls newRow old with
    | (calls1, some err) => (calls1, some err)
    | (calls1, none) => st.runInsertUpdateTriggers old calls1 new

/-- Method `(*stable).runDeleteTriggers`, by recursion on `old`. -/
def stable.runDeleteTriggers (st : stable) (new : List Row) :
    List HandleCall → List Row → List HandleCall × Option String
  | calls, [] => (calls, none)
  | calls, oldRow :: old =>
    if new.any (fun newRow => Row.val newRow st.primaryKeyField = Row.val oldRow st.primaryKeyField)
    then st.runDeleteTriggers new calls old
    else
      match st.runTriggersForRow calls OperationDelete none (some oldRow) with
      | (calls1, some err) => (calls1, some err)
      | (calls1, none) => st.runDeleteTriggers new calls1 old

/-- Method `(*stable).runTriggers`: the trace after dispatch and the error. -/
def stable.runTriggers (st : stable) (new old : List Row) : List HandleCall × Option String :=
  if st.triggers.length = 0 then (st.calls, none)
  else
    match st.runInsertUpdateTriggers old st.calls new with
    | (calls1, some err) => (calls1, some err)
    | (calls1, none) => st.runDeleteTriggers new calls1 old

/-- Method `(*stable).commit`. -/
def stable.commit (st : stable) (rows : List Row) : stable × Option String :=
  match st.validateRows rows with
  | some err => (st, some err)
  | none =>
    match st.runTriggers rows st.rows with
    | (calls1, some err) => ({ st with calls := calls1 }, some err)
    | (calls1, none) => ({ st with rows := rows, calls := calls1 }, none)

/-- The inner loop of `mergeRows` for one `newRow`: the first row with its
primary-key value takes its fields, and without one `newRow` is appended. -/
def mergeRow (primaryKeyField : String) (newRow : Row) : List Row → List Row
  | [] => [newRow]
  | row :: rows =>
    if Row.val row primaryKeyField ≠ Row.val newRow primaryKeyField then
      row :: mergeRow primaryKeyField newRow rows
    else Row.assign row newRow :: rows

/-- Method `(*stable).mergeRows`. -/
def stable.mergeRows (st : stable) : List Row → List Row → List Row
  | rows, [] => rows
  | rows, newRow :: newRows => st.mergeRows (mergeRow st.primaryKeyField newRow rows) newRows

/-- The inner loop of `deleteRows` for one primary-key value: the first row
holding it is removed. -/
def deleteRow (primaryKeyField deletePK : String) : List Row → List Row
  | [] => []
  | row :: rows =>
    if Row.val row primaryKeyField = deletePK then rows
    else row :: deleteRow primaryKeyField deletePK rows

/-- Method `(*stable).deleteRows`. -/
def stable.deleteRows (st : stable) : List Row → List Row → List Row
  | rows, [] => rows
  | rows, delete :: rowsForDelete =>
    st.deleteRows (deleteRow st.primaryKeyField (Row.val delete st.primaryKeyField) rows)
      rowsForDelete

/-- The inner loop of `selectRows`: every field of `whr` is present in `row`
with the same value. -/
def rowMatches (whr row : Row) : Bool :=
  decide (∀ field ∈ Finmap.keys whr, Finmap.lookup field row = Finmap.lookup field whr)

/-- Method `(*stable).selectRows`. -/
def stable.selectRows (st : stable) (whr : Row) : List Row :=
  if (Finmap.keys whr).card = 0 then st.getRowsCopy
  else st.getRowsCopy.filter (rowMatches whr)

/-- Method `(*stable).selectAny`. -/
def stable.selectAny (st : stable) (whr : Row) : Option Row :=
  match st.selectRows whr with
  | [] => none
  | row :: _ => some row

/-- Method `(*stable).insert`: the table after the call, the count and the error. -/
def stable.insert (st : stable) (new : List Row) : stable × Nat × Option String :=
  match st.validateRows new with
  | some err => (st, 0, some err)
  | none =>
    match st.commit (st.getRowsCopy ++ new) with
    | (st1, some err) => (st1, 0, some err)
    | (st1, none) => (st1, new.length, none)

/-- Method `(*stable).upsert`. -/
def stable.upsert (st : stable) (new : List Row) : stable × Nat × Option String :=
  match st.validateRows new with
  | some err => (st, 0, some err)
  | none =>
    match st.commit (st.mergeRows st.getRowsCopy new) with
    | (st1, some err) => (st1, 0, some err)
    | (st1, none) => (st1, new.length, none)

/-- Method `(*stable).update`. -/
def stable.update (st : stable) (fields whr : Row) : stable × Nat × Option String :=
  if (Finmap.lookup st.primaryKeyField fields).isSome then
    (st, 0, some "update of primary key is forbidden")
  else if (st.selectRows whr).length = 0 then (st, 0, none)
  else st.upsert ((st.selectRows whr).map fun row => Row.assign row fields)

/-- Method `(*stable).delete`. -/
def stable.delete (st : stable) (whr : Row) : stable × Nat × Option String :=
  if (st.selectRows whr).length = 0 then (st, 0, none)
  else
    match st.commit (st.deleteRows st.getRowsCopy (st.selectRows whr)) with
    | (st1, some err) => (st1, 0, some err)
    | (st1, none) => (st1, (st.selectRows whr).length, none)

/-- Method `(*stable).Insert`. -/
def stable.Insert (st : stable) (new : List Row) : stable × Nat × Option String :=
  st.insert new

/-- Method `(*stable).Upsert`. -/
def stable.Upsert (st : stable) (new : List Row) : stable × Nat × Option String :=
  st.upsert new

/-- Method `(*stable).Update`. -/
def stable.Update (st : stable) (fields whr : Row) : stable × Nat × Option String :=
  st.update fields whr

/-- Method `(*stable).Delete`. -/
def stable.Delete (st : stable) (whr : Row) : stable × Nat × Option String :=
  st.delete whr

/-- Method `(*stable).Select`. -/
def stable.Select (st : stable) (whr : Row) : Option (List Row) × Option String :=
  if (st.selectRows whr).length = 0 then (none, some ErrNoRows)
  else (some (st.selectRows whr), none)

/-- Method `(*stable).SelectAny`. -/
def stable.SelectAny (st : stable) (whr : Row) : Option Row × Option String :=
  match st.selectAny whr with
  | none => (none, some ErrNoRows)
  | some row => (some row, none)

/-- Method `(*stable).AddTrigger`. -/
def stable.AddTrigger (st : stable) (trigger : Trigger) : stable :=
  { st with triggers := st.triggers ++ [trigger] }

/-- The validator list `vs` that `NewSTable` builds. -/
def newValidators (primaryKeyField : String) (nonEmptyFields uniqFields : List String) :
    List validator :=
  [newValueEmptyValidator primaryKeyField, newValueDuplicatesValidator primaryKeyField]
    ++ nonEmptyFields.map newValueEmptyValidator
    ++ uniqFields.map newValueDuplicatesValidator

/-- Function `NewSTable`: the table returned (none for Go's nil) and the error. -/
def NewSTable (rows : List Row) (primaryKeyField : String)
    (nonEmptyFields uniqFields : List String) : Option stable × Option String :=
  if primaryKeyField = "" then (none, some "primary key is empty")
  else
    match stable.commit
      { primaryKeyField := primaryKeyField, rows := [],
        validators := newValidators primaryKeyField nonEmptyFields uniqFields,
        triggers := [], calls := [] } rows with
    | (st, err) => (some st, err)

/-! ## Definitions used to state the properties -/

/-- A mutating call of the public interface, with its arguments. -/
inductive Mutation where
  | Insert (rows : List Row)
  | Upsert (rows : List Row)
  | Update (fields whr : Row)
  | Delete (whr : Row)

/-- The table, the count and the error after one mutating call. -/
def stable.mutate (st : stable) : Mutation → stable × Nat × Option String
  | Mutation.Insert rows => st.Insert rows
  | Mutation.Upsert rows => st.Upsert rows
  | Mutation.Update fields whr => st.Update fields whr
  | Mutation.Delete whr => st.Delete whr

/-- The states a client can bring a table to: what `NewSTable` returns for a
declaration, and what any public call makes of such a state. -/
inductive Reachable (primaryKeyField : String) (nonEmptyFields uniqFields : List String) :
    stable → Prop where
  | init (rows : List Row) (st : stable) (err : Option String) :
      NewSTable rows primaryKeyField nonEmptyFields uniqFields = (some st, err) →
      Reachable primaryKeyField nonEmptyFields uniqFields st
  | mutate (st : stable) (m : Mutation) :
      Reachable primaryKeyField nonEmptyFields uniqFields st →
      Reachable primaryKeyField nonEmptyFields uniqFields (st.mutate m).1
  | addTrigger (st : stable) (trigger : Trigger) :
      Reachable primaryKeyField nonEmptyFields uniqFields st →
      Reachable primaryKeyField nonEmptyFields uniqFields (st.AddTrigger trigger)

/-- A valid state: the primary key field is named, the validators are those
`NewSTable` installs for the declaration, and the stored rows pass them. -/
def stable.valid (st : stable) (nonEmptyFields uniqFields : List String) : Prop :=
  st.primaryKeyField ≠ "" ∧
  st.validators = newValidators st.primaryKeyField nonEmptyFields uniqFields ∧
  st.validateRows st.rows = none

instance stable.decidableValid (st : stable) (nonEmptyFields uniqFields : List String) :
    Decidable (st.valid nonEmptyFields uniqFields) :=
  inferInstanceAs (Decidable (_ ∧ _ ∧ _))

/-- The rows have pairwise different values of the field. -/
def distinctOn (field : String) (rows : List Row) : Prop :=
  rows.Pairwise (fun a b => Row.val a field ≠ Row.val b field)

/-- The row set after Upsert in the words of the specification: the old rows in
their order, each one that shares its primary-key value with an incoming row
overwritten by that row's fields, followed by the incoming rows whose
primary-key value no old row has, in input order. -/
def upsertSpec (primaryKeyField : String) (old new : List Row) : List Row :=
  old.map (fun row =>
      match new.find? (fun n => Row.val n primaryKeyField = Row.val row primaryKeyField) with
      | some n => Row.assign row n
      | none => row)
    ++ new.filter (fun n =>
      old.all (fun row => Row.val row primaryKeyField ≠ Row.val n primaryKeyField))

/-! ## Events and their delivery -/

/-- An event of the dispatcher: the arguments of one round of `Handle` calls. -/
structure Event where
  operation : Nat
  new : Option Row
  old : Option Row
deriving DecidableEq

/-- The record of the `Handle` call that delivers the event to trigger `i`. -/
def Event.record (ev : Event) (i : Nat) (err : Option String) : HandleCall :=
  ⟨i, ev.operation, ev.new, ev.old, err⟩

/-- The event a row of the new set gives rise to, in the words of the specification. -/
def newRowEvent (primaryKeyField : String) (old : List Row) (row : Row) : Option Event :=
  match old.find? (fun o => Row.val o primaryKeyField = Row.val row primaryKeyField) with
  | none => some ⟨OperationInsert, some row, none⟩
  | some o => if row = o then none else some ⟨OperationUpdate, some row, some o⟩

/-- The events of a commit in the words of the specification -/
def eventsSpec (primaryKeyField : String) (new old : List Row) : List Event :=
  new.filterMap (newRowEvent primaryKeyField old)
    ++ (old.filter (fun o =>
          new.all (fun n => Row.val n primaryKeyField ≠ Row.val o primaryKeyField))).map
        (fun o => ⟨OperationDelete, none, some o⟩)

/-- The order of delivery: every event in turn, to every trigger in registration order. -/
def schedule (triggers : List Trigger) (events : List Event) : List (Nat × Trigger × Event) :=
  events.flatMap (fun ev => (List.enumFrom 0 triggers).map (fun p => (p.1, p.2, ev)))

/-- Sequential delivery of scheduled calls, stopping at the first error. -/
def deliver : List (Nat × Trigger × Event) → List HandleCall → List HandleCall × Option String
  | [], calls => (calls, none)
  | (i, t, ev) :: rest, calls =>
    match t.Handle calls ev.operation ev.new ev.old with
    | some err => (calls ++ [ev.record i (some err)], some err)
    | none => deliver rest (calls ++ [ev.record i none])

/-- The record of a scheduled call that the trigger accepted. -/
def accepted (p : Nat × Trigger × Event) : HandleCall :=
  p.2.2.record p.1 none

/-- A trigger that accepts every event, whatever happened before. -/
def Trigger.neverFails (t : Trigger) : Prop :=
  ∀ (calls : List HandleCall) (operation : Nat) (new old : Option Row),
    t.Handle calls operation new old = none

/-- The candidate row set a mutating call builds for `commit`. -/
def stable.candidateRows (st : stable) : Mutation → List Row
  | Mutation.Insert new => st.getRowsCopy ++ new
  | Mutation.Upsert new => st.mergeRows st.getRowsCopy new
  | Mutation.Update fields whr =>
    st.mergeRows st.getRowsCopy ((st.selectRows whr).map fun row => Row.assign row fields)
  | Mutation.Delete whr => st.deleteRows st.getRowsCopy (st.selectRows whr)

/-- The trace of events that every one of `n` triggers accepts: each event in turn,
recorded once per trigger in registration order. -/
def broadcast (n : Nat) (events : List Event) : List HandleCall :=
  events.flatMap (fun ev => (List.range n).map (fun i => ev.record i none))

/-! ## A concrete table -/

/-- The trigger of the test suite: it fails on a row whose primary-key value is
`primaryKeyValueError` and accepts (records) every other event. -/
def newTestTrigger (primaryKeyField primaryKeyValueError : String) : Trigger :=
  ⟨fun _ _ new old =>
    if (new.any fun row => Row.val row primaryKeyField = primaryKeyValueError) ||
        (old.any fun row => Row.val row primaryKeyField = primaryKeyValueError)
    then some "trigger error" else none⟩

/-- Two rows of the test suite. -/
def exampleRows : List Row :=
  [Row.ofList [("pk", "0"), ("nonEmpty", "e0"), ("uniq", "u0")],
   Row.ofList [("pk", "1"), ("nonEmpty", "e1"), ("uniq", "u1")]]

/-- The table `NewSTable(exampleRows, "pk", ["nonEmpty"], ["uniq"])` after
`AddTrigger(newTestTrigger("pk", "triggerError"))`. -/
def exampleTable : stable :=
  { primaryKeyField := "pk", rows := exampleRows,
    validators := newValidators "pk" ["nonEmpty"] ["uniq"],
    triggers := [newTestTrigger "pk" "triggerError"], calls := [] }

/-- Rows for Upsert: a partial row for the stored key "1" and a row with a new key. -/
def exampleUpsertRows : List Row :=
  [Row.ofList [("pk", "1"), ("nonEmpty", "e11"), ("new", "n11")],
   Row.ofList [("pk", "2"), ("nonEmpty", "e2"), ("uniq", "u2")]]

/-- A partial row for the stored key "1" that leaves the non-empty field out. -/
def examplePartialRows : List Row :=
  [Row.ofList [("pk", "1"), ("new", "n11")]]

/-- A row that repeats the stored key "1" and leaves the non-empty field out. -/
def exampleClashRows : List Row :=
  [Row.ofList [("pk", "1")]]

/-- A trigger that accepts every event. -/
def recordingTrigger : Trigger :=
  ⟨fun _ _ _ _ => none⟩

/-- The concrete table with two triggers that never fail in place of the test trigger. -/
def quietTable : stable :=
  { exampleTable with triggers := [recordingTrigger, recordingTrigger] }

/-- A candidate row set for the concrete table: row "0" changed, row "1" gone, row "2" new. -/
def exampleCandidate : List Row :=
  [Row.ofList [("pk", "0"), ("nonEmpty", "changed"), ("uniq", "u0")],
   Row.ofList [("pk", "2"), ("nonEmpty", "e2"), ("uniq", "u2")]]

/-- Rows for Insert: a row the test trigger accepts, then one it refuses. -/
def exampleVetoRows : List Row :=
  [Row.ofList [("pk", "2"), ("nonEmpty", "e2"), ("uniq", "u2")],
   Row.ofList [("pk", "triggerError"), ("nonEmpty", "e3"), ("uniq", "u3")]]

/-! ## Lemmas -/

theorem commit_err_eq (st : stable) (rows : List Row) :
    (st.commit rows).2 =
      match st.validateRows rows with
      | some err => some err
      | none => (st.runTriggers rows st.rows).2 := by
  unfold stable.commit
  cases hv : st.validateRows rows with
  | some err => rfl
  | none =>
    rcases ht : st.runTriggers rows st.rows with ⟨calls1, _ | err⟩ <;> rfl

theorem commit_primaryKeyField (st : stable) (rows : List Row) :
    (st.commit rows).1.primaryKeyField = st.primaryKeyField := by
  unfold stable.commit
  cases hv : st.validateRows rows with
  | some err => rfl
  | none =>
    rcases ht : st.runTriggers rows st.rows with ⟨calls1, _ | err⟩ <;> rfl

theorem commit_validators (st : stable) (rows : List Row) :
    (st.commit rows).1.validators = st.validators := by
  unfold stable.commit
  cases hv : st.validateRows rows with
  | some err => rfl
  | none =>
    rcases ht : st.runTriggers rows st.rows with ⟨calls1, _ | err⟩ <;> rfl

theorem commit_triggers (st : stable) (rows : List Row) :
    (st.commit rows).1.triggers = st.triggers := by
  unfold stable.commit
  cases hv : st.validateRows rows with
  | some err => rfl
  | none =>
    rcases ht : st.runTriggers rows st.rows with ⟨calls1, _ | err⟩ <;> rfl

theorem commit_rows_of_err (st : stable) (rows : List Row) (err : String)
    (h : (st.commit rows).2 = some err) : (st.commit rows).1.rows = st.rows := by
  unfold stable.commit at h ⊢
  cases hv : st.validateRows rows with
  | some e => rfl
  | none =>
    rw [hv] at h
    rcases ht : st.runTriggers rows st.rows with ⟨calls1, _ | e⟩
    · rw [ht] at h; simp at h
    · rfl

theorem commit_rows_of_ok (st : stable) (rows : List Row)
    (h : (st.commit rows).2 = none) :
    (st.commit rows).1.rows = rows ∧ st.validateRows rows = none := by
  unfold stable.commit at h ⊢
  cases hv : st.validateRows rows with
  | some e => rw [hv] at h; simp at h
  | none =>
    rw [hv] at h
    rcases ht : st.runTriggers rows st.rows with ⟨calls1, _ | e⟩
    · exact ⟨rfl, rfl⟩
    · rw [ht] at h; simp at h

/-- The three components of `insert`, by the outcome of its two stages. -/

theorem insert_eq (st : stable) (new : List Row) :
    st.insert new =
      match st.validateRows new with
      | some err => (st, 0, some err)
      | none =>
        match (st.commit (st.rows ++ new)).2 with
        | some err => ((st.commit (st.rows ++ new)).1, 0, some err)
        | none => ((st.commit (st.rows ++ new)).1, new.length, none) := by
  unfold stable.insert stable.getRowsCopy
  cases st.validateRows new with
  | some err => rfl
  | none =>
    rcases hc : st.commit (st.rows ++ new) with ⟨st1, _ | err⟩ <;> rfl

theorem upsert_eq (st : stable) (new : List Row) :
    st.upsert new =
      match st.validateRows new with
      | some err => (st, 0, some err)
      | none =>
        match (st.commit (st.mergeRows st.rows new)).2 with
        | some err => ((st.commit (st.mergeRows st.rows new)).1, 0, some err)
        | none => ((st.commit (st.mergeRows st.rows new)).1, new.length, none) := by
  unfold stable.upsert stable.getRowsCopy
  cases st.validateRows new with
  | some err => rfl
  | none =>
    rcases hc : st.commit (st.mergeRows st.rows new) with ⟨st1, _ | err⟩ <;> rfl

theorem delete_eq (st : stable) (whr : Row) :
    st.delete whr =
      if (st.selectRows whr).length = 0 then (st, 0, none)
      else
        match (st.commit (st.deleteRows st.rows (st.selectRows whr))).2 with
        | some err => ((st.commit (st.deleteRows st.rows (st.selectRows whr))).1, 0, some err)
        | none =>
          ((st.commit (st.deleteRows st.rows (st.selectRows whr))).1,
            (st.selectRows whr).length, none) := by
  unfold stable.delete stable.getRowsCopy
  split
  · rfl
  · rcases hc : st.commit (st.deleteRows st.rows (st.selectRows whr)) with ⟨st1, _ | err⟩ <;> rfl

theorem insert_atomic (st : stable) (new : List Row) (h : (st.insert new).2.2 ≠ none) :
    (st.insert new).1.rows = st.rows ∧ (st.insert new).2.1 = 0 := by
  rw [insert_eq] at h ⊢
  cases hv : st.validateRows new with
  | some err => exact ⟨rfl, rfl⟩
  | none =>
    rw [hv] at h
    cases hc : (st.commit (st.rows ++ new)).2 with
    | some err => exact ⟨commit_rows_of_err st _ err hc, rfl⟩
    | none => rw [hc] at h; exact absurd rfl h

theorem upsert_atomic (st : stable) (new : List Row) (h : (st.upsert new).2.2 ≠ none) :
    (st.upsert new).1.rows = st.rows ∧ (st.upsert new).2.1 = 0 := by
  rw [upsert_eq] at h ⊢
  cases hv : st.validateRows new with
  | some err => exact ⟨rfl, rfl⟩
  | none =>
    rw [hv] at h
    cases hc : (st.commit (st.mergeRows st.rows new)).2 with
    | some err => exact ⟨commit_rows_of_err st _ err hc, rfl⟩
    | none => rw [hc] at h; exact absurd rfl h

theorem update_atomic (st : stable) (fields whr : Row) (h : (st.update fields whr).2.2 ≠ none) :
    (st.update fields whr).1.rows = st.rows ∧ (st.update fields whr).2.1 = 0 := by
  unfold stable.update at h ⊢
  split
  · exact ⟨rfl, rfl⟩
  · split
    · exact ⟨rfl, rfl⟩
    · rename_i h1 h2
      rw [if_neg h1, if_neg h2] at h
      exact upsert_atomic st _ h

theorem delete_atomic (st : stable) (whr : Row) (h : (st.delete whr).2.2 ≠ none) :
    (st.delete whr).1.rows = st.rows ∧ (st.delete whr).2.1 = 0 := by
  rw [delete_eq] at h ⊢
  split
  · exact ⟨rfl, rfl⟩
  · rename_i h1
    rw [if_neg h1] at h
    cases hc : (st.commit (st.deleteRows st.rows (st.selectRows whr))).2 with
    | some err => exact ⟨commit_rows_of_err st _ err hc, rfl⟩
    | none => rw [hc] at h; exact absurd rfl h

theorem valueEmpty_isValid_eq_none (field : String) (rows : List Row) :
    valueEmptyValidator.isValid field rows = none ↔ ∀ row ∈ rows, Row.val row field ≠ "" := by
  induction rows with
  | nil => simp [valueEmptyValidator.isValid]
  | cons row rows ih =>
    unfold valueEmptyValidator.isValid
    by_cases h : Row.val row field = ""
    · simp [h]
    · simp [h, ih]

theorem valueDuplicates_loop_eq_none (field : String) (rows : List Row) :
    ∀ find : List String,
      valueDuplicatesValidator.loop field find rows = none ↔
        (∀ row ∈ rows, Row.val row field ≠ "" → Row.val row field ∉ find) ∧
        rows.Pairwise (fun a b => Row.val a field ≠ "" → Row.val a field ≠ Row.val b field) := by
  induction rows with
  | nil => intro find; simp [valueDuplicatesValidator.loop]
  | cons row rows ih =>
    intro find
    unfold valueDuplicatesValidator.loop
    by_cases h : Row.val row field = ""
    · rw [if_pos h, ih find]
      simp [h]
    · rw [if_neg h]
      by_cases hm : Row.val row field ∈ find
      · rw [if_pos hm]
        simp only [List.mem_cons, forall_eq_or_imp, List.pairwise_cons]
        constructor
        · intro hh; cases hh
        · intro hh; exact absurd hm (hh.1.1 h)
      · rw [if_neg hm, ih]
        simp only [List.mem_cons, forall_eq_or_imp, List.pairwise_cons, not_or]
        constructor
        · rintro ⟨h1, h2⟩
          refine ⟨⟨fun _ => hm, fun r hr hne => (h1 r hr hne).2⟩, ⟨fun r hr _ heq => ?_, h2⟩⟩
          have := (h1 r hr (heq ▸ h)).1
          exact this heq.symm
        · rintro ⟨⟨_, h1⟩, h2, h3⟩
          refine ⟨fun r hr hne => ⟨fun heq => h2 r hr h heq.symm, h1 r hr hne⟩, h3⟩

theorem valueDuplicates_isValid_eq_none (field : String) (rows : List Row) :
    valueDuplicatesValidator.isValid field rows = none ↔
      rows.Pairwise (fun a b => Row.val a field ≠ "" → Row.val a field ≠ Row.val b field) := by
  unfold valueDuplicatesValidator.isValid
  rw [valueDuplicates_loop_eq_none]
  simp

theorem validateRowsLoop_eq_none (rows : List Row) (vs : List validator) :
    validateRowsLoop rows vs = none ↔ ∀ v ∈ vs, v.isValid rows = none := by
  induction vs with
  | nil => simp [validateRowsLoop]
  | cons v vs ih =>
    unfold validateRowsLoop
    cases hv : v.isValid rows with
    | some err => simp [hv]
    | none => simp [hv, ih]

/-- Both kinds of validator accept every sublist of a row set they accept. -/

theorem validator_isValid_sublist (v : validator) (rows sub : List Row)
    (hs : List.Sublist sub rows) (h : v.isValid rows = none) : v.isValid sub = none := by
  cases v with
  | valueEmptyValidator field =>
    simp only [validator.isValid, valueEmpty_isValid_eq_none] at h ⊢
    exact fun row hr => h row (hs.subset hr)
  | valueDuplicatesValidator field =>
    simp only [validator.isValid, valueDuplicates_isValid_eq_none] at h ⊢
    exact h.sublist hs

theorem validateRows_sublist (st : stable) (rows sub : List Row)
    (hs : List.Sublist sub rows) (h : st.validateRows rows = none) :
    st.validateRows sub = none := by
  unfold stable.validateRows at h ⊢
  rw [validateRowsLoop_eq_none] at h ⊢
  exact fun v hv => validator_isValid_sublist v rows sub hs (h v hv)

theorem validateRows_nil (st : stable) : st.validateRows [] = none := by
  unfold stable.validateRows
  rw [validateRowsLoop_eq_none]
  intro v _
  cases v <;> rfl

/-- What `commit` keeps whatever its outcome: the configuration, and rows that pass the
validators if the rows before did. -/

theorem commit_valid (st : stable) (rows : List Row) (ne uq : List String)
    (h : st.valid ne uq) : (st.commit rows).1.valid ne uq := by
  obtain ⟨h1, h2, h3⟩ := h
  refine ⟨by rwa [commit_primaryKeyField],
    by rw [commit_validators, commit_primaryKeyField]; exact h2, ?_⟩
  unfold stable.validateRows at h3 ⊢
  rw [commit_validators]
  cases hc : (st.commit rows).2 with
  | none =>
    obtain ⟨hr, hv⟩ := commit_rows_of_ok st rows hc
    rw [hr]; exact hv
  | some err =>
    rw [commit_rows_of_err st rows err hc]; exact h3

theorem upsert_fst (st : stable) (new : List Row) :
    (st.upsert new).1 = st ∨ ∃ rows, (st.upsert new).1 = (st.commit rows).1 := by
  rw [upsert_eq]
  cases st.validateRows new with
  | some err => exact Or.inl rfl
  | none => cases (st.commit (st.mergeRows st.rows new)).2 <;> exact Or.inr ⟨_, rfl⟩

/-- Every mutating call leaves the table as it was or as one `commit` left it. -/

theorem mutate_fst (st : stable) (m : Mutation) :
    (st.mutate m).1 = st ∨ ∃ rows, (st.mutate m).1 = (st.commit rows).1 := by
  cases m with
  | Insert new =>
    show (st.insert new).1 = st ∨ ∃ rows, (st.insert new).1 = (st.commit rows).1
    rw [insert_eq]
    cases st.validateRows new with
    | some err => exact Or.inl rfl
    | none => cases (st.commit (st.rows ++ new)).2 <;> exact Or.inr ⟨_, rfl⟩
  | Upsert new => exact upsert_fst st new
  | Update fields whr =>
    show (st.update fields whr).1 = st ∨ ∃ rows, (st.update fields whr).1 = (st.commit rows).1
    unfold stable.update
    split
    · exact Or.inl rfl
    · split
      · exact Or.inl rfl
      · exact upsert_fst st _
  | Delete whr =>
    show (st.delete whr).1 = st ∨ ∃ rows, (st.delete whr).1 = (st.commit rows).1
    rw [delete_eq]
    split
    · exact Or.inl rfl
    · cases (st.commit (st.deleteRows st.rows (st.selectRows whr))).2 <;>
        exact Or.inr ⟨_, rfl⟩

theorem mutate_valid (st : stable) (m : Mutation) (ne uq : List String)
    (h : st.valid ne uq) : (st.mutate m).1.valid ne uq := by
  rcases mutate_fst st m with h1 | ⟨rows, h1⟩ <;> rw [h1]
  · exact h
  · exact commit_valid st rows ne uq h

theorem mutate_primaryKeyField (st : stable) (m : Mutation) :
    (st.mutate m).1.primaryKeyField = st.primaryKeyField := by
  rcases mutate_fst st m with h1 | ⟨rows, h1⟩ <;> rw [h1]
  exact commit_primaryKeyField st rows

theorem NewSTable_valid (rows : List Row) (pk : String) (ne uq : List String) (st : stable)
    (err : Option String) (h : NewSTable rows pk ne uq = (some st, err)) :
    st.valid ne uq ∧ st.primaryKeyField = pk := by
  unfold NewSTable at h
  split at h
  · simp at h
  · rename_i hpk
    simp only [Prod.mk.injEq, Option.some.injEq] at h
    obtain ⟨h1, _⟩ := h
    subst h1
    refine ⟨commit_valid _ rows ne uq ⟨hpk, rfl, validateRows_nil _⟩, ?_⟩
    rw [commit_primaryKeyField]

theorem Reachable_valid (pk : String) (ne uq : List String) (st : stable)
    (h : Reachable pk ne uq st) : st.valid ne uq ∧ st.primaryKeyField = pk := by
  induction h with
  | init rows st err h => exact NewSTable_valid rows pk ne uq st err h
  | mutate st m _ ih =>
    exact ⟨mutate_valid st m ne uq ih.1, (mutate_primaryKeyField st m).trans ih.2⟩
  | addTrigger st trigger _ ih => exact ih

/-- Rows that pass the validators of a valid table have a non-empty primary key. -/

theorem valid_pk_ne_empty (st : stable) (ne uq : List String) (rows : List Row)
    (h : st.valid ne uq) (hr : st.validateRows rows = none) :
    ∀ row ∈ rows, Row.val row st.primaryKeyField ≠ "" := by
  obtain ⟨_, h2, _⟩ := h
  unfold stable.validateRows at hr
  rw [validateRowsLoop_eq_none, h2] at hr
  have := hr (newValueEmptyValidator st.primaryKeyField) (by simp [newValidators])
  exact (valueEmpty_isValid_eq_none _ _).mp this

/-- Rows that pass the validators of a valid table have pairwise distinct primary keys. -/

theorem valid_pk_pairwise (st : stable) (ne uq : List String) (rows : List Row)
    (h : st.valid ne uq) (hr : st.validateRows rows = none) :
    rows.Pairwise (fun a b => Row.val a st.primaryKeyField ≠ Row.val b st.primaryKeyField) := by
  have hne := valid_pk_ne_empty st ne uq rows h hr
  obtain ⟨_, h2, _⟩ := h
  unfold stable.validateRows at hr
  rw [validateRowsLoop_eq_none, h2] at hr
  have := hr (newValueDuplicatesValidator st.primaryKeyField) (by simp [newValidators])
  have hp := (valueDuplicates_isValid_eq_none _ _).mp this
  exact hp.imp_of_mem (fun ha _ hab => hab (hne _ ha))

theorem pairwise_getElem_ne {α : Type} (R : α → α → Prop) (hsymm : ∀ a b, R a b → R b a)
    (l : List α) (h : l.Pairwise R) (i j : Nat) (hi : i < l.length) (hj : j < l.length)
    (hij : i ≠ j) : R l[i] l[j] := by
  rcases Nat.lt_or_gt_of_ne hij with hlt | hgt
  · exact List.pairwise_iff_getElem.mp h i j hi hj hlt
  · exact hsymm _ _ (List.pairwise_iff_getElem.mp h j i hj hi hgt)

theorem lookup_assign (dst src : Row) (field : String) :
    Finmap.lookup field (Row.assign dst src) =
      match Finmap.lookup field src with
      | some value => some value
      | none => Finmap.lookup field dst := by
  unfold Row.assign
  cases h : Finmap.lookup field src with
  | some value =>
    rw [Finmap.lookup_union_left (Finmap.mem_of_lookup_eq_some h), h]
  | none =>
    rw [Finmap.lookup_union_right (Finmap.lookup_eq_none.mp h)]

theorem val_assign_of_eq (dst src : Row) (field : String)
    (h : Row.val src field = Row.val dst field) :
    Row.val (Row.assign dst src) field = Row.val dst field := by
  unfold Row.val at h ⊢
  rw [lookup_assign]
  cases hs : Finmap.lookup field src with
  | some value => rw [hs] at h; exact h
  | none => rfl

theorem val_assign_of_not_mem (dst src : Row) (field : String)
    (h : Finmap.lookup field src = none) :
    Row.val (Row.assign dst src) field = Row.val dst field := by
  unfold Row.val
  rw [lookup_assign, h]

theorem assign_eq_self (dst src : Row)
    (h : ∀ field value, Finmap.lookup field src = some value →
      Finmap.lookup field dst = some value) : Row.assign dst src = dst := by
  apply Finmap.ext_lookup
  intro field
  rw [lookup_assign]
  cases hs : Finmap.lookup field src with
  | some value => exact (h field value hs).symm
  | none => rfl

/-- The rows have pairwise different values of the field. -/

theorem mergeRow_eq (pk : String) (n : Row) (rows : List Row) (h : distinctOn pk rows) :
    mergeRow pk n rows =
      rows.map (fun r => if Row.val r pk = Row.val n pk then Row.assign r n else r) ++
        (if rows.all (fun r => Row.val r pk ≠ Row.val n pk) then [n] else []) := by
  induction rows with
  | nil => simp [mergeRow]
  | cons r rs ih =>
    unfold distinctOn at h
    rw [List.pairwise_cons] at h
    unfold mergeRow
    by_cases hr : Row.val r pk = Row.val n pk
    · simp only [hr, ne_eq, not_true_eq_false, ↓reduceIte, List.map_cons, List.all_cons,
        decide_False, Bool.false_and, Bool.false_eq_true, List.append_nil, List.cons.injEq, true_and]
      symm
      calc List.map (fun r => if Row.val r pk = Row.val n pk then Row.assign r n else r) rs
          = List.map (fun r => r) rs := by
            apply List.map_congr_left
            intro a ha
            have := h.1 a ha
            rw [hr] at this
            simp [Ne.symm this]
        _ = rs := by simp
    · simp only [ne_eq, hr, not_false_eq_true, ↓reduceIte, List.map_cons, List.all_cons,
        decide_True, Bool.true_and, List.cons_append, List.cons.injEq, true_and]
      exact ih h.2

theorem distinctOn_mergeRow (pk : String) (n : Row) (rows : List Row) (h : distinctOn pk rows) :
    distinctOn pk (mergeRow pk n rows) := by
  induction rows with
  | nil => simp [mergeRow, distinctOn]
  | cons r rs ih =>
    unfold distinctOn at h ih ⊢
    rw [List.pairwise_cons] at h
    unfold mergeRow
    by_cases hr : Row.val r pk = Row.val n pk
    · simp only [hr, ne_eq, not_true_eq_false, ↓reduceIte, List.pairwise_cons]
      refine ⟨fun a ha => ?_, h.2⟩
      rw [val_assign_of_eq r n pk hr.symm]
      exact h.1 a ha
    · simp only [ne_eq, hr, not_false_eq_true, ↓reduceIte, List.pairwise_cons]
      refine ⟨fun a ha => ?_, ih h.2⟩
      rw [mergeRow_eq pk n rs h.2] at ha
      simp only [List.mem_append, List.mem_map] at ha
      rcases ha with ⟨b, hb, rfl⟩ | ha
      · by_cases hb2 : Row.val b pk = Row.val n pk
        · simp only [hb2, ↓reduceIte]
          rw [val_assign_of_eq b n pk hb2.symm]
          exact h.1 b hb
        · simp only [hb2, ↓reduceIte]
          exact h.1 b hb
      · split at ha
        · simp only [List.mem_singleton] at ha
          subst ha
          exact hr
        · simp at ha

theorem find_eq_none_of_distinct (pk : String) (n : Row) (ns : List Row) (v : String)
    (hv : v = Row.val n pk) (h : ∀ m ∈ ns, Row.val n pk ≠ Row.val m pk) :
    ns.find? (fun m => Row.val m pk = v) = none := by
  rw [List.find?_eq_none]
  intro m hm
  have := h m hm
  subst hv
  simpa using Ne.symm this

theorem val_mergeStep (pk : String) (n r : Row) :
    Row.val (if Row.val r pk = Row.val n pk then Row.assign r n else r) pk = Row.val r pk := by
  split
  · rename_i h
    exact val_assign_of_eq r n pk h.symm
  · rfl

theorem all_ne_mergeStep (pk : String) (n m : Row) (rows : List Row) :
    (rows.map (fun r => if Row.val r pk = Row.val n pk then Row.assign r n else r)).all
        (fun r => Row.val r pk ≠ Row.val m pk) =
      rows.all (fun r => Row.val r pk ≠ Row.val m pk) := by
  rw [List.all_map]
  congr 1
  funext r
  simp only [Function.comp, val_mergeStep]

theorem mergeRows_eq_upsertSpec (st : stable) (new : List Row) :
    ∀ rows : List Row, distinctOn st.primaryKeyField rows → distinctOn st.primaryKeyField new →
      st.mergeRows rows new = upsertSpec st.primaryKeyField rows new := by
  induction new with
  | nil => intro rows _ _; simp [stable.mergeRows, upsertSpec]
  | cons n ns ih =>
    intro rows hrows hnew
    unfold distinctOn at hnew
    rw [List.pairwise_cons] at hnew
    unfold stable.mergeRows
    rw [ih _ (distinctOn_mergeRow _ n rows hrows) hnew.2, mergeRow_eq _ n rows hrows]
    unfold upsertSpec
    rw [List.map_append, List.map_map, List.append_assoc]
    congr 1
    · apply List.map_congr_left
      intro r hr
      simp only [Function.comp]
      by_cases hrn : Row.val r st.primaryKeyField = Row.val n st.primaryKeyField
      · simp only [hrn, ↓reduceIte, List.find?_cons, decide_True]
        rw [val_assign_of_eq r n _ hrn.symm, hrn,
          find_eq_none_of_distinct _ n ns _ rfl hnew.1]
      · have hnr : ¬ Row.val n st.primaryKeyField = Row.val r st.primaryKeyField :=
          fun h => hrn h.symm
        simp only [hrn, ↓reduceIte, List.find?_cons, hnr, decide_False]
    · by_cases hall :
          rows.all (fun r => Row.val r st.primaryKeyField ≠ Row.val n st.primaryKeyField) = true
      · rw [if_pos hall, List.filter_cons, if_pos hall]
        simp only [List.map_cons, List.map_nil, List.singleton_append, List.cons.injEq]
        rw [find_eq_none_of_distinct _ n ns _ rfl hnew.1]
        refine ⟨rfl, ?_⟩
        apply List.filter_congr
        intro m hm
        have hnm := hnew.1 m hm
        rw [List.all_append, all_ne_mergeStep]
        simp [hnm]
      · rw [if_neg hall, List.filter_cons, if_neg hall]
        simp only [List.map_nil, List.nil_append, List.append_nil]
        apply List.filter_congr
        intro m _
        exact all_ne_mergeStep _ n m rows

theorem rowMatches_of_card_eq_zero (whr row : Row) (h : (Finmap.keys whr).card = 0) :
    rowMatches whr row = true := by
  unfold rowMatches
  rw [Finset.card_eq_zero] at h
  simp [h]

theorem selectRows_eq_filter (st : stable) (whr : Row) :
    st.selectRows whr = st.rows.filter (rowMatches whr) := by
  unfold stable.selectRows stable.getRowsCopy
  split
  · rename_i h
    symm
    rw [List.filter_eq_self]
    exact fun row _ => rowMatches_of_card_eq_zero whr row h
  · rfl

theorem upsert_err_eq (st : stable) (new : List Row) :
    (st.upsert new).2.2 =
      match st.validateRows new with
      | some err => some err
      | none =>
        match st.validateRows (st.mergeRows st.rows new) with
        | some err => some err
        | none => (st.runTriggers (st.mergeRows st.rows new) st.rows).2 := by
  rw [upsert_eq]
  cases hv : st.validateRows new with
  | some err => rfl
  | none =>
    have hc := commit_err_eq st (st.mergeRows st.rows new)
    cases hc2 : (st.commit (st.mergeRows st.rows new)).2 with
    | some err => rw [hc2] at hc; simpa using hc
    | none => rw [hc2] at hc; simpa using hc

/-- A successful `upsert` passed both validations and stored the merged rows. -/

theorem upsert_ok (st : stable) (new : List Row) (h : (st.upsert new).2.2 = none) :
    st.validateRows new = none ∧ (st.upsert new).1.rows = st.mergeRows st.rows new ∧
      (st.upsert new).2.1 = new.length := by
  rw [upsert_eq] at h ⊢
  cases hv : st.validateRows new with
  | some err => rw [hv] at h; simp at h
  | none =>
    rw [hv] at h
    cases hc : (st.commit (st.mergeRows st.rows new)).2 with
    | some err => rw [hc] at h; simp at h
    | none => exact ⟨rfl, (commit_rows_of_ok st _ hc).1, rfl⟩

/-- Among rows with pairwise different values of a field, the value identifies the row. -/
theorem distinctOn_inj (field : String) (rows : List Row) (h : distinctOn field rows)
    (a b : Row) (ha : a ∈ rows) (hb : b ∈ rows) (hab : Row.val a field = Row.val b field) :
    a = b := by
  by_contra hne
  exact List.Pairwise.forall (fun _ _ hxy => Ne.symm hxy) h ha hb hne hab

theorem assign_assign_left (row fields : Row) :
    Row.assign row (Row.assign row fields) = Row.assign row fields := by
  apply Finmap.ext_lookup
  intro field
  rw [lookup_assign]
  cases h : Finmap.lookup field (Row.assign row fields) with
  | some value => rfl
  | none =>
    rw [lookup_assign] at h
    cases hf : Finmap.lookup field fields with
    | some value => rw [hf] at h; simp at h
    | none => rw [hf] at h; exact h

/-- Looking a stored row up, by key, among the updated copies of the selected rows. -/

theorem find_updated (pk : String) (rows : List Row) (hd : distinctOn pk rows)
    (p : Row → Bool) (g : Row → Row) (hg : ∀ a, Row.val (g a) pk = Row.val a pk)
    (row : Row) (hrow : row ∈ rows) :
    ∀ l : List Row, (∀ a ∈ l, a ∈ rows) →
      ((l.filter p).map g).find? (fun u => Row.val u pk = Row.val row pk) =
        if row ∈ l ∧ p row = true then some (g row) else none := by
  intro l
  induction l with
  | nil => intro _; simp
  | cons a l ih =>
    intro hl
    have ih := ih (fun x hx => hl x (List.mem_cons_of_mem a hx))
    have ha : a ∈ rows := hl a (List.mem_cons_self a l)
    by_cases hpa : p a = true
    · rw [List.filter_cons_of_pos hpa, List.map_cons, List.find?_cons]
      by_cases hq : Row.val (g a) pk = Row.val row pk
      · have : a = row := distinctOn_inj pk rows hd a row ha hrow (by rw [← hg a]; exact hq)
        subst this
        simp [hq, hpa]
      · have hne : row ≠ a := fun h => hq (by rw [h]; exact hg a)
        simp only [hq, decide_False, ih, List.mem_cons, hne, false_or]
    · rw [List.filter_cons_of_neg hpa, ih]
      by_cases hra : row = a
      · subst hra
        simp [hpa]
      · simp [hra]

theorem mergeRows_updated (st : stable) (fields whr : Row)
    (hd : distinctOn st.primaryKeyField st.rows) (hpk : st.primaryKeyField ∉ fields) :
    st.mergeRows st.rows ((st.selectRows whr).map fun row => Row.assign row fields) =
      st.rows.map (fun row => if rowMatches whr row = true then Row.assign row fields else row) := by
  have hg : ∀ a : Row, Row.val (Row.assign a fields) st.primaryKeyField =
      Row.val a st.primaryKeyField :=
    fun a => val_assign_of_not_mem a fields _ (Finmap.lookup_eq_none.mpr hpk)
  have hdu : distinctOn st.primaryKeyField
      ((st.selectRows whr).map fun row => Row.assign row fields) := by
    unfold distinctOn
    rw [List.pairwise_map, selectRows_eq_filter]
    simp only [hg]
    exact List.Pairwise.sublist (List.filter_sublist st.rows) hd
  rw [mergeRows_eq_upsertSpec st _ st.rows hd hdu]
  unfold upsertSpec
  have htail : List.filter (fun n => st.rows.all
      (fun row => Row.val row st.primaryKeyField ≠ Row.val n st.primaryKeyField))
      ((st.selectRows whr).map fun row => Row.assign row fields) = [] := by
    rw [List.filter_eq_nil_iff]
    intro u hu
    rw [selectRows_eq_filter, List.mem_map] at hu
    obtain ⟨a, ha, rfl⟩ := hu
    simp only [List.all_eq_true, decide_eq_true_eq, not_forall]
    exact ⟨a, (List.mem_filter.mp ha).1, fun h => h (hg a).symm⟩
  rw [htail, List.append_nil]
  apply List.map_congr_left
  intro row hrow
  rw [selectRows_eq_filter,
    find_updated st.primaryKeyField st.rows hd (rowMatches whr) (fun r => Row.assign r fields)
      hg row hrow st.rows (fun _ h => h)]
  by_cases hm : rowMatches whr row = true
  · simp only [hrow, hm, and_self, ↓reduceIte]
    exact assign_assign_left row fields
  · simp only [hrow, hm, and_false, ↓reduceIte]
    simp

/-- A successful `update` that matched a row stored the rows with the matched ones overwritten. -/

theorem update_ok_rows (st : stable) (nonEmptyFields uniqFields : List String)
    (fields whr : Row) (hv : st.valid nonEmptyFields uniqFields)
    (hpk : st.primaryKeyField ∉ fields) (hok : (st.update fields whr).2.2 = none) :
    (st.update fields whr).1.rows =
      st.rows.map (fun row => if rowMatches whr row = true then Row.assign row fields else row) := by
  have hd := valid_pk_pairwise st _ _ _ hv hv.2.2
  unfold stable.update at hok ⊢
  have hpk2 : ¬ (Finmap.lookup st.primaryKeyField fields).isSome = true :=
    fun h => hpk (Finmap.lookup_isSome.mp h)
  rw [if_neg hpk2] at hok ⊢
  by_cases hlen : (st.selectRows whr).length = 0
  · rw [if_pos hlen]
    rw [selectRows_eq_filter, List.length_eq_zero, List.filter_eq_nil_iff] at hlen
    symm
    calc List.map (fun row => if rowMatches whr row = true then Row.assign row fields else row) st.rows
        = List.map (fun row => row) st.rows := by
          apply List.map_congr_left
          intro row hrow
          simp [hlen row hrow]
      _ = st.rows := by simp
  · rw [if_neg hlen] at hok ⊢
    rw [(upsert_ok st _ hok).2.1]
    exact mergeRows_updated st fields whr hd hpk

/-- A new row that is itself among the old rows, whose keys are distinct, raises no event. -/
theorem runTriggersForNewRow_self (st : stable) (calls : List HandleCall) (newRow : Row) :
    ∀ old : List Row, distinctOn st.primaryKeyField old → newRow ∈ old →
      st.runTriggersForNewRow calls newRow old = (calls, none) := by
  intro old
  induction old with
  | nil => intro _ h; simp at h
  | cons o os ih =>
    intro hd hmem
    unfold distinctOn at hd
    rw [List.pairwise_cons] at hd
    unfold stable.runTriggersForNewRow
    by_cases hpk : Row.val o st.primaryKeyField = Row.val newRow st.primaryKeyField
    · have : newRow = o := by
        rcases List.mem_cons.mp hmem with h | h
        · exact h
        · exact absurd hpk (hd.1 newRow h)
      subst this
      simp
    · rw [if_pos hpk]
      rcases List.mem_cons.mp hmem with h | h
      · exact absurd (by rw [h]) hpk
      · exact ih hd.2 h

theorem runInsertUpdateTriggers_self (st : stable) (old : List Row)
    (hd : distinctOn st.primaryKeyField old) (calls : List HandleCall) :
    ∀ new : List Row, (∀ row ∈ new, row ∈ old) →
      st.runInsertUpdateTriggers old calls new = (calls, none) := by
  intro new
  induction new with
  | nil => intro _; rfl
  | cons n ns ih =>
    intro h
    unfold stable.runInsertUpdateTriggers
    rw [runTriggersForNewRow_self st calls n old hd (h n (List.mem_cons_self n ns))]
    exact ih (fun row hrow => h row (List.mem_cons_of_mem n hrow))

theorem runDeleteTriggers_self (st : stable) (new : List Row) (calls : List HandleCall) :
    ∀ old : List Row, (∀ row ∈ old, row ∈ new) →
      st.runDeleteTriggers new calls old = (calls, none) := by
  intro old
  induction old with
  | nil => intro _; rfl
  | cons o os ih =>
    intro h
    unfold stable.runDeleteTriggers
    have hany : new.any (fun newRow =>
        Row.val newRow st.primaryKeyField = Row.val o st.primaryKeyField) = true := by
      rw [List.any_eq_true]
      exact ⟨o, h o (List.mem_cons_self o os), by simp⟩
    rw [if_pos hany]
    exact ih (fun row hrow => h row (List.mem_cons_of_mem o hrow))

/-- Dispatch on an unchanged row set makes no `Handle` call. -/

theorem runTriggers_self (st : stable) (hd : distinctOn st.primaryKeyField st.rows) :
    st.runTriggers st.rows st.rows = (st.calls, none) := by
  unfold stable.runTriggers
  split
  · rfl
  · rw [runInsertUpdateTriggers_self st st.rows hd st.calls st.rows (fun _ h => h)]
    exact runDeleteTriggers_self st st.rows st.calls st.rows (fun _ h => h)

theorem commit_self (st : stable) (hd : distinctOn st.primaryKeyField st.rows)
    (hv : st.validateRows st.rows = none) : st.commit st.rows = (st, none) := by
  unfold stable.commit
  rw [hv, runTriggers_self st hd]

theorem runTriggersForRowLoop_eq_deliver (ev : Event) (triggers : List Trigger) :
    ∀ (i : Nat) (calls : List HandleCall),
      runTriggersForRowLoop ev.operation ev.new ev.old i triggers calls =
        deliver ((List.enumFrom i triggers).map (fun p => (p.1, p.2, ev))) calls := by
  induction triggers with
  | nil => intro i calls; rfl
  | cons t ts ih =>
    intro i calls
    unfold runTriggersForRowLoop
    simp only [List.enumFrom_cons, List.map_cons, deliver]
    cases h : t.Handle calls ev.operation ev.new ev.old with
    | some err => rfl
    | none => exact ih (i + 1) _

theorem deliver_append (a b : List (Nat × Trigger × Event)) :
    ∀ calls : List HandleCall,
      deliver (a ++ b) calls =
        match deliver a calls with
        | (calls1, some err) => (calls1, some err)
        | (calls1, none) => deliver b calls1 := by
  induction a with
  | nil => intro calls; rfl
  | cons x xs ih =>
    intro calls
    obtain ⟨i, t, ev⟩ := x
    simp only [List.cons_append, deliver]
    cases h : t.Handle calls ev.operation ev.new ev.old with
    | some err => rfl
    | none => exact ih _

theorem schedule_nil (triggers : List Trigger) : schedule triggers [] = [] := rfl

theorem schedule_cons (triggers : List Trigger) (ev : Event) (events : List Event) :
    schedule triggers (ev :: events) =
      (List.enumFrom 0 triggers).map (fun p => (p.1, p.2, ev)) ++ schedule triggers events := by
  simp [schedule]

theorem schedule_append (triggers : List Trigger) (a b : List Event) :
    schedule triggers (a ++ b) = schedule triggers a ++ schedule triggers b := by
  simp [schedule]

theorem schedule_no_triggers (events : List Event) : schedule [] events = [] := by
  simp [schedule]

theorem runTriggersForRow_eq_deliver (st : stable) (calls : List HandleCall) (ev : Event) :
    st.runTriggersForRow calls ev.operation ev.new ev.old =
      deliver (schedule st.triggers [ev]) calls := by
  unfold stable.runTriggersForRow
  rw [runTriggersForRowLoop_eq_deliver, schedule_cons, schedule_nil, List.append_nil]

theorem runTriggersForNewRow_eq_deliver (st : stable) (calls : List HandleCall) (newRow : Row) :
    ∀ old : List Row,
      st.runTriggersForNewRow calls newRow old =
        deliver (schedule st.triggers (newRowEvent st.primaryKeyField old newRow).toList) calls := by
  intro old
  induction old with
  | nil =>
    unfold stable.runTriggersForNewRow
    exact runTriggersForRow_eq_deliver st calls ⟨OperationInsert, some newRow, none⟩
  | cons o os ih =>
    unfold stable.runTriggersForNewRow
    by_cases hpk : Row.val o st.primaryKeyField = Row.val newRow st.primaryKeyField
    · have hno : ¬ Row.val o st.primaryKeyField ≠ Row.val newRow st.primaryKeyField :=
        fun h => h hpk
      rw [if_neg hno]
      by_cases heq : newRow = o
      · rw [if_pos heq]
        simp [newRowEvent, hpk, heq, schedule_nil, deliver]
      · rw [if_neg heq]
        have : newRowEvent st.primaryKeyField (o :: os) newRow =
            some ⟨OperationUpdate, some newRow, some o⟩ := by
          simp [newRowEvent, hpk, heq]
        rw [this]
        exact runTriggersForRow_eq_deliver st calls ⟨OperationUpdate, some newRow, some o⟩
    · rw [if_pos hpk, ih]
      have : newRowEvent st.primaryKeyField (o :: os) newRow =
          newRowEvent st.primaryKeyField os newRow := by
        simp [newRowEvent, hpk]
      rw [this]

theorem runInsertUpdateTriggers_eq_deliver (st : stable) (old : List Row) (new : List Row) :
    ∀ calls : List HandleCall,
      st.runInsertUpdateTriggers old calls new =
        deliver (schedule st.triggers (new.filterMap (newRowEvent st.primaryKeyField old)))
          calls := by
  induction new with
  | nil => intro calls; rfl
  | cons n ns ih =>
    intro calls
    unfold stable.runInsertUpdateTriggers
    have hsplit : schedule st.triggers
        ((n :: ns).filterMap (newRowEvent st.primaryKeyField old)) =
        schedule st.triggers (newRowEvent st.primaryKeyField old n).toList ++
          schedule st.triggers (ns.filterMap (newRowEvent st.primaryKeyField old)) := by
      rw [← schedule_append]
      cases h : newRowEvent st.primaryKeyField old n <;> simp [List.filterMap_cons, h]
    rw [hsplit, deliver_append, runTriggersForNewRow_eq_deliver]
    rcases hd : deliver (schedule st.triggers (newRowEvent st.primaryKeyField old n).toList)
      calls with ⟨calls1, _ | err⟩
    · exact ih calls1
    · rfl

theorem runDeleteTriggers_eq_deliver (st : stable) (new : List Row) (old : List Row) :
    ∀ calls : List HandleCall,
      st.runDeleteTriggers new calls old =
        deliver (schedule st.triggers
          ((old.filter (fun o => new.all (fun n =>
              Row.val n st.primaryKeyField ≠ Row.val o st.primaryKeyField))).map
            (fun o => ⟨OperationDelete, none, some o⟩))) calls := by
  induction old with
  | nil => intro calls; rfl
  | cons o os ih =>
    intro calls
    unfold stable.runDeleteTriggers
    by_cases hany : new.any (fun newRow =>
        Row.val newRow st.primaryKeyField = Row.val o st.primaryKeyField) = true
    · rw [if_pos hany, ih]
      have hall : ¬ new.all (fun n =>
          Row.val n st.primaryKeyField ≠ Row.val o st.primaryKeyField) = true := by
        simp only [List.any_eq_true, decide_eq_true_eq] at hany
        simp only [List.all_eq_true, decide_eq_true_eq, not_forall]
        obtain ⟨x, hx, hxe⟩ := hany
        exact ⟨x, hx, fun h => h hxe⟩
      simp only [List.filter_cons, hall, Bool.false_eq_true, ↓reduceIte]
    · rw [if_neg hany]
      have hall : new.all (fun n =>
          Row.val n st.primaryKeyField ≠ Row.val o st.primaryKeyField) = true := by
        simp only [List.any_eq_true, decide_eq_true_eq, not_exists, not_and] at hany
        simp only [List.all_eq_true, decide_eq_true_eq]
        exact hany
      simp only [List.filter_cons, hall, ↓reduceIte]
      rw [List.map_cons, schedule_cons, deliver_append]
      have hrow := runTriggersForRowLoop_eq_deliver ⟨OperationDelete, none, some o⟩ st.triggers 0 calls
      simp only at hrow
      rw [← hrow]
      show (match runTriggersForRowLoop OperationDelete none (some o) 0 st.triggers calls with
        | (calls1, some err) => (calls1, some err)
        | (calls1, none) => st.runDeleteTriggers new calls1 os) = _
      rcases hd : runTriggersForRowLoop OperationDelete none (some o) 0 st.triggers calls
        with ⟨calls1, _ | err⟩
      · exact ih calls1
      · rfl

/-- The nested loops of `runTriggers` deliver the events of the specification, each to
every trigger in registration order, one call after the other up to the first error. -/
theorem runTriggers_eq_deliver (st : stable) (new old : List Row) :
    st.runTriggers new old =
      deliver (schedule st.triggers (eventsSpec st.primaryKeyField new old)) st.calls := by
  unfold stable.runTriggers
  split
  · rename_i h
    rw [List.length_eq_zero] at h
    rw [h, schedule_no_triggers]
    rfl
  · unfold eventsSpec
    rw [schedule_append, deliver_append, runInsertUpdateTriggers_eq_deliver]
    rcases hd : deliver (schedule st.triggers
      (new.filterMap (newRowEvent st.primaryKeyField old))) st.calls with ⟨calls1, _ | err⟩
    · exact runDeleteTriggers_eq_deliver st new old calls1
    · rfl

theorem mem_schedule (triggers : List Trigger) (events : List Event)
    (p : Nat × Trigger × Event) (h : p ∈ schedule triggers events) : p.2.1 ∈ triggers := by
  unfold schedule at h
  simp only [List.mem_flatMap, List.mem_map] at h
  obtain ⟨ev, _, q, hq, rfl⟩ := h
  obtain ⟨i, t⟩ := q
  have := (List.mem_enumFrom hq).2.2
  simp only [this]
  exact List.getElem_mem _

theorem deliver_neverFails (sched : List (Nat × Trigger × Event)) :
    ∀ calls : List HandleCall, (∀ p ∈ sched, p.2.1.neverFails) →
      deliver sched calls = (calls ++ sched.map accepted, none) := by
  induction sched with
  | nil => intro calls _; simp [deliver]
  | cons x xs ih =>
    intro calls h
    obtain ⟨i, t, ev⟩ := x
    unfold deliver
    have ht : t.Handle calls ev.operation ev.new ev.old = none :=
      h (i, t, ev) (List.mem_cons_self _ _) calls ev.operation ev.new ev.old
    rw [ht]
    simp only
    rw [ih _ (fun p hp => h p (List.mem_cons_of_mem _ hp))]
    simp [accepted]

theorem deliver_ok (sched : List (Nat × Trigger × Event)) :
    ∀ calls : List HandleCall, (deliver sched calls).2 = none →
      (deliver sched calls).1 = calls ++ sched.map accepted := by
  induction sched with
  | nil => intro calls _; simp [deliver]
  | cons x xs ih =>
    intro calls h
    obtain ⟨i, t, ev⟩ := x
    unfold deliver at h ⊢
    cases ht : t.Handle calls ev.operation ev.new ev.old with
    | some err => rw [ht] at h; simp at h
    | none =>
      rw [ht] at h
      simp only at h ⊢
      rw [ih _ h]
      simp [accepted]

theorem deliver_err (sched : List (Nat × Trigger × Event)) :
    ∀ (calls : List HandleCall) (e : String), (deliver sched calls).2 = some e →
      ∃ done i t ev rest, sched = done ++ (i, t, ev) :: rest ∧
        t.Handle (calls ++ done.map accepted) ev.operation ev.new ev.old = some e ∧
        (deliver sched calls).1 = calls ++ done.map accepted ++ [ev.record i (some e)] := by
  induction sched with
  | nil => intro calls e h; simp [deliver] at h
  | cons x xs ih =>
    intro calls e h
    obtain ⟨i, t, ev⟩ := x
    unfold deliver at h ⊢
    cases ht : t.Handle calls ev.operation ev.new ev.old with
    | some err =>
      rw [ht] at h
      simp only [Option.some.injEq] at h
      subst h
      exact ⟨[], i, t, ev, xs, rfl, by simpa using ht, by simp⟩
    | none =>
      rw [ht] at h
      simp only at h ⊢
      obtain ⟨done, j, u, ev2, rest, hs, hh, hc⟩ := ih _ e h
      refine ⟨(i, t, ev) :: done, j, u, ev2, rest, by rw [hs]; rfl, ?_, ?_⟩
      · simpa [accepted] using hh
      · rw [hc]; simp [accepted]

theorem commit_of_valid (st : stable) (rows : List Row) (hv : st.validateRows rows = none) :
    st.commit rows =
      match st.runTriggers rows st.rows with
      | (calls1, some err) => ({ st with calls := calls1 }, some err)
      | (calls1, none) => ({ st with rows := rows, calls := calls1 }, none) := by
  unfold stable.commit
  cases hr : st.runTriggers rows st.rows with
  | mk calls1 res =>
    cases res <;> simp only [hv, hr]

theorem commit_of_invalid (st : stable) (rows : List Row) (hv : st.validateRows rows ≠ none) :
    st.commit rows = (st, st.validateRows rows) := by
  unfold stable.commit
  cases h : st.validateRows rows with
  | none => exact absurd h hv
  | some err => rfl

theorem upsert_cases (st : stable) (new : List Row) :
    (st.upsert new).1 = st ∨
      (st.validateRows (st.mergeRows st.rows new) = none ∧
        (st.upsert new).1 = (st.commit (st.mergeRows st.rows new)).1 ∧
        (st.upsert new).2.2 = (st.commit (st.mergeRows st.rows new)).2) := by
  rw [upsert_eq]
  cases st.validateRows new with
  | some err => exact Or.inl rfl
  | none =>
    by_cases hv : st.validateRows (st.mergeRows st.rows new) = none
    · right
      refine ⟨hv, ?_⟩
      cases hc : (st.commit (st.mergeRows st.rows new)).2 <;> exact ⟨rfl, rfl⟩
    · left
      have := commit_of_invalid st _ hv
      cases hc : (st.commit (st.mergeRows st.rows new)).2 <;> simp only [this]

/-- A mutating call either leaves the table, trace included, as it was, or it is one
`commit` of its candidate row set, which passed the validators, and returns its error. -/
theorem mutate_cases (st : stable) (m : Mutation) :
    (st.mutate m).1 = st ∨
      (st.validateRows (st.candidateRows m) = none ∧
        (st.mutate m).1 = (st.commit (st.candidateRows m)).1 ∧
        (st.mutate m).2.2 = (st.commit (st.candidateRows m)).2) := by
  cases m with
  | Insert new =>
    show (st.insert new).1 = st ∨ (st.validateRows (st.rows ++ new) = none ∧
      (st.insert new).1 = (st.commit (st.rows ++ new)).1 ∧
      (st.insert new).2.2 = (st.commit (st.rows ++ new)).2)
    rw [insert_eq]
    cases st.validateRows new with
    | some err => exact Or.inl rfl
    | none =>
      by_cases hv : st.validateRows (st.rows ++ new) = none
      · right
        refine ⟨hv, ?_⟩
        cases hc : (st.commit (st.rows ++ new)).2 <;> exact ⟨rfl, rfl⟩
      · left
        have := commit_of_invalid st _ hv
        cases hc : (st.commit (st.rows ++ new)).2 <;> simp only [this]
  | Upsert new => exact upsert_cases st new
  | Update fields whr =>
    show (st.update fields whr).1 = st ∨
      (st.validateRows (st.mergeRows st.rows
          ((st.selectRows whr).map fun row => Row.assign row fields)) = none ∧
        (st.update fields whr).1 = (st.commit (st.mergeRows st.rows
          ((st.selectRows whr).map fun row => Row.assign row fields))).1 ∧
        (st.update fields whr).2.2 = (st.commit (st.mergeRows st.rows
          ((st.selectRows whr).map fun row => Row.assign row fields))).2)
    unfold stable.update
    split
    · exact Or.inl rfl
    · split
      · exact Or.inl rfl
      · exact upsert_cases st _
  | Delete whr =>
    show (st.delete whr).1 = st ∨ (st.validateRows (st.deleteRows st.rows (st.selectRows whr))
        = none ∧
      (st.delete whr).1 = (st.commit (st.deleteRows st.rows (st.selectRows whr))).1 ∧
      (st.delete whr).2.2 = (st.commit (st.deleteRows st.rows (st.selectRows whr))).2)
    rw [delete_eq]
    split
    · exact Or.inl rfl
    · by_cases hv : st.validateRows (st.deleteRows st.rows (st.selectRows whr)) = none
      · right
        refine ⟨hv, ?_⟩
        cases hc : (st.commit (st.deleteRows st.rows (st.selectRows whr))).2 <;> exact ⟨rfl, rfl⟩
      · left
        have := commit_of_invalid st _ hv
        cases hc : (st.commit (st.deleteRows st.rows (st.selectRows whr))).2 <;> simp only [this]

theorem schedule_map_accepted (triggers : List Trigger) (events : List Event) :
    (schedule triggers events).map accepted = broadcast triggers.length events := by
  unfold schedule broadcast
  rw [List.map_flatMap]
  congr 1
  funext ev
  rw [List.map_map]
  have h : (fun i => ev.record i none) = (fun i => ev.record i none) ∘ id := rfl
  have h2 : (accepted ∘ fun (p : Nat × Trigger) => (p.1, p.2, ev)) =
      (fun i => ev.record i none) ∘ Prod.fst := by
    funext p
    rfl
  rw [h2, ← List.map_map, List.enumFrom_map_fst, List.range_eq_range']

theorem runTriggers_neverFails (st : stable) (new old : List Row)
    (h : ∀ t ∈ st.triggers, t.neverFails) :
    st.runTriggers new old =
      (st.calls ++ broadcast st.triggers.length (eventsSpec st.primaryKeyField new old),
        none) := by
  rw [runTriggers_eq_deliver, deliver_neverFails _ _ (fun p hp => h _ (mem_schedule _ _ p hp)),
    schedule_map_accepted]

/-- Among rows with distinct keys, the first row with the key of a stored row is that row. -/
theorem find_self (pk : String) (rows : List Row) (hd : distinctOn pk rows) (r : Row)
    (hr : r ∈ rows) : rows.find? (fun o => Row.val o pk = Row.val r pk) = some r := by
  induction rows with
  | nil => simp at hr
  | cons a as ih =>
    unfold distinctOn at hd ih
    rw [List.pairwise_cons] at hd
    rw [List.find?_cons]
    by_cases ha : Row.val a pk = Row.val r pk
    · simp only [ha, decide_True]
      rcases List.mem_cons.mp hr with h | h
      · rw [h]
      · exact absurd ha (hd.1 r h)
    · simp only [ha, decide_False]
      rcases List.mem_cons.mp hr with h | h
      · exact absurd (by rw [h]) ha
      · exact ih hd.2 h

theorem newRowEvent_self (pk : String) (rows : List Row) (hd : distinctOn pk rows) (r : Row)
    (hr : r ∈ rows) : newRowEvent pk rows r = none := by
  unfold newRowEvent
  rw [find_self pk rows hd r hr]
  simp

theorem newRowEvent_fresh (pk : String) (rows : List Row) (r : Row)
    (hr : ∀ o ∈ rows, Row.val o pk ≠ Row.val r pk) :
    newRowEvent pk rows r = some ⟨OperationInsert, some r, none⟩ := by
  unfold newRowEvent
  have : rows.find? (fun o => Row.val o pk = Row.val r pk) = none := by
    rw [List.find?_eq_none]
    intro o ho
    simpa using hr o ho
  rw [this]

theorem filterMap_eq_nil_of_forall {α β : Type} (f : α → Option β) (l : List α)
    (h : ∀ a ∈ l, f a = none) : l.filterMap f = [] := by
  induction l with
  | nil => rfl
  | cons a as ih =>
    rw [List.filterMap_cons, h a (List.mem_cons_self a as)]
    exact ih (fun x hx => h x (List.mem_cons_of_mem a hx))

theorem filterMap_eq_map_of_forall {α β : Type} (f : α → Option β) (g : α → β) (l : List α)
    (h : ∀ a ∈ l, f a = some (g a)) : l.filterMap f = l.map g := by
  induction l with
  | nil => rfl
  | cons a as ih =>
    rw [List.filterMap_cons, h a (List.mem_cons_self a as), List.map_cons]
    simp only
    rw [ih (fun x hx => h x (List.mem_cons_of_mem a hx))]

/-- The events of a commit that removes the rows satisfying `p`: one Delete per removed
row, in stored order. -/
theorem eventsSpec_delete (pk : String) (rows : List Row) (hd : distinctOn pk rows)
    (p : Row → Bool) :
    eventsSpec pk (rows.filter (fun r => !p r)) rows =
      (rows.filter p).map (fun o => ⟨OperationDelete, none, some o⟩) := by
  unfold eventsSpec
  rw [filterMap_eq_nil_of_forall _ _
    (fun r hr => newRowEvent_self pk rows hd r (List.mem_filter.mp hr).1), List.nil_append]
  congr 1
  apply List.filter_congr
  intro o ho
  by_cases hp : p o = true
  · rw [hp, List.all_eq_true]
    intro n hn
    rw [List.mem_filter] at hn
    have hne : n ≠ o := by
      intro h
      rw [h, hp] at hn
      simp at hn
    have : Row.val n pk ≠ Row.val o pk :=
      fun h => hne (distinctOn_inj pk rows hd n o hn.1 ho h)
    simpa using this
  · have hp2 : p o = false := by simpa using hp
    rw [hp2]
    apply Bool.eq_false_iff.mpr
    intro h
    rw [List.all_eq_true] at h
    have := h o (List.mem_filter.mpr ⟨ho, by simp [hp2]⟩)
    simp at this

/-- The events of a commit that appends rows: one Insert per appended row, in order. -/
theorem eventsSpec_insert (pk : String) (rows new : List Row)
    (hd : distinctOn pk (rows ++ new)) :
    eventsSpec pk (rows ++ new) rows =
      new.map (fun n => ⟨OperationInsert, some n, none⟩) := by
  unfold distinctOn at hd
  rw [List.pairwise_append] at hd
  unfold eventsSpec
  rw [List.filterMap_append, filterMap_eq_nil_of_forall _ rows
    (fun r hr => newRowEvent_self pk rows hd.1 r hr), List.nil_append,
    filterMap_eq_map_of_forall _ (fun n => (⟨OperationInsert, some n, none⟩ : Event)) new
      (fun n hn => newRowEvent_fresh pk rows n (fun o ho => hd.2.2 o ho n hn))]
  have : rows.filter (fun o => (rows ++ new).all
      (fun n => Row.val n pk ≠ Row.val o pk)) = [] := by
    rw [List.filter_eq_nil_iff]
    intro o ho h
    rw [List.all_eq_true] at h
    have := h o (List.mem_append_left new ho)
    simp at this
  rw [this]
  simp

theorem deleteRows_cons_of_ne (st : stable) (r : Row) (sel : List Row) :
    ∀ rows : List Row,
      (∀ d ∈ sel, Row.val r st.primaryKeyField ≠ Row.val d st.primaryKeyField) →
      st.deleteRows (r :: rows) sel = r :: st.deleteRows rows sel := by
  induction sel with
  | nil => intro rows _; rfl
  | cons d ds ih =>
    intro rows h
    unfold stable.deleteRows
    have hd : ¬ Row.val r st.primaryKeyField = Row.val d st.primaryKeyField :=
      h d (List.mem_cons_self d ds)
    simp only [deleteRow, hd, ↓reduceIte]
    exact ih _ (fun x hx => h x (List.mem_cons_of_mem d hx))

/-- Removing, by key, the stored rows that satisfy `p` leaves the other rows in order. -/
theorem deleteRows_filter (st : stable) (p : Row → Bool) (rows : List Row)
    (hd : distinctOn st.primaryKeyField rows) :
    st.deleteRows rows (rows.filter p) = rows.filter (fun r => !p r) := by
  induction rows with
  | nil => rfl
  | cons r rs ih =>
    unfold distinctOn at hd ih
    rw [List.pairwise_cons] at hd
    by_cases hp : p r = true
    · rw [List.filter_cons_of_pos hp]
      unfold stable.deleteRows
      simp only [deleteRow, ↓reduceIte]
      rw [ih hd.2]
      simp [List.filter_cons, hp]
    · rw [List.filter_cons_of_neg hp,
        deleteRows_cons_of_ne st r _ rs
          (fun d hd2 => hd.1 d (List.mem_filter.mp hd2).1), ih hd.2]
      simp [List.filter_cons, hp]

theorem rowMatches_iff (whr row : Row) :
    rowMatches whr row = true ↔
      ∀ field value, Finmap.lookup field whr = some value →
        Finmap.lookup field row = some value := by
  unfold rowMatches
  rw [decide_eq_true_iff]
  constructor
  · intro h field value hf
    rw [h field (Finmap.mem_keys.mpr (Finmap.mem_of_lookup_eq_some hf)), hf]
  · intro h field hf
    obtain ⟨value, hv⟩ := Finmap.mem_iff.mp (Finmap.mem_keys.mp hf)
    rw [hv, h field value hv]

theorem rowMatches_empty (row : Row) : rowMatches ∅ row = true :=
  rowMatches_of_card_eq_zero ∅ row (by simp)

theorem length_filter_add_length_filter_not {α : Type} (p : α → Bool) (l : List α) :
    (l.filter p).length + (l.filter (fun a => !p a)).length = l.length := by
  induction l with
  | nil => rfl
  | cons a as ih =>
    by_cases h : p a = true
    · simp [List.filter_cons, h]; omega
    · simp [List.filter_cons, h]; omega

theorem val_eq_empty_iff (row : Row) (field : String) :
    Row.val row field = "" ↔
      Finmap.lookup field row = none ∨ Finmap.lookup field row = some "" := by
  unfold Row.val
  cases h : Finmap.lookup field row with
  | none => simp
  | some value => simp

/-- On a valid table with triggers that never fail, `delete` succeeds whenever it selects a
row: the selected rows go, and each is announced to every trigger. -/
theorem delete_neverFails (st : stable) (ne uq : List String) (whr : Row)
    (hv : st.valid ne uq) (hq : ∀ t ∈ st.triggers, t.neverFails)
    (hsel : ¬ (st.selectRows whr).length = 0) :
    st.delete whr =
      ({ st with
          rows := st.rows.filter (fun row => !rowMatches whr row),
          calls := st.calls ++ broadcast st.triggers.length
            ((st.rows.filter (rowMatches whr)).map
              (fun row => ⟨OperationDelete, none, some row⟩)) },
        (st.rows.filter (rowMatches whr)).length, none) := by
  have hd := valid_pk_pairwise st _ _ _ hv hv.2.2
  have hsub : st.validateRows (st.rows.filter (fun row => !rowMatches whr row)) = none :=
    validateRows_sublist st st.rows _ (List.filter_sublist st.rows) hv.2.2
  unfold stable.delete stable.getRowsCopy
  rw [if_neg hsel, selectRows_eq_filter, deleteRows_filter st _ st.rows hd,
    commit_of_valid st _ hsub, runTriggers_neverFails st _ _ hq,
    eventsSpec_delete _ st.rows hd]

/-- The loop of the duplicate-value validator stops at the first row whose non-empty value
is in the set of seen values or occurred in an earlier row. -/
theorem valueDuplicates_loop_eq_some (field : String) (rows : List Row) :
    ∀ (find : List String) (e : String),
      valueDuplicatesValidator.loop field find rows = some e →
        ∃ pre row post, rows = pre ++ row :: post ∧
          valueDuplicatesValidator.loop field find pre = none ∧
          Row.val row field ≠ "" ∧
          (Row.val row field ∈ find ∨ ∃ r ∈ pre, Row.val r field = Row.val row field) ∧
          e = duplicateValueError (Row.val row field) field := by
  induction rows with
  | nil => intro find e h; simp [valueDuplicatesValidator.loop] at h
  | cons a as ih =>
    intro find e h
    unfold valueDuplicatesValidator.loop at h
    by_cases ha : Row.val a field = ""
    · rw [if_pos ha] at h
      obtain ⟨pre, row, post, hs, hpre, hne, hmem, he⟩ := ih find e h
      refine ⟨a :: pre, row, post, by rw [hs]; rfl, ?_, hne, ?_, he⟩
      · unfold valueDuplicatesValidator.loop
        rw [if_pos ha]
        exact hpre
      · rcases hmem with hm | ⟨r, hr, hrv⟩
        · exact Or.inl hm
        · exact Or.inr ⟨r, List.mem_cons_of_mem a hr, hrv⟩
    · rw [if_neg ha] at h
      by_cases hm : Row.val a field ∈ find
      · rw [if_pos hm] at h
        simp only [Option.some.injEq] at h
        exact ⟨[], a, as, rfl, rfl, ha, Or.inl hm, h.symm⟩
      · rw [if_neg hm] at h
        obtain ⟨pre, row, post, hs, hpre, hne, hmem, he⟩ := ih _ e h
        refine ⟨a :: pre, row, post, by rw [hs]; rfl, ?_, hne, ?_, he⟩
        · unfold valueDuplicatesValidator.loop
          rw [if_neg ha, if_neg hm]
          exact hpre
        · rcases hmem with hm2 | ⟨r, hr, hrv⟩
          · rcases List.mem_cons.mp hm2 with h1 | h1
            · exact Or.inr ⟨a, List.mem_cons_self a pre, h1.symm⟩
            · exact Or.inl h1
          · exact Or.inr ⟨r, List.mem_cons_of_mem a hr, hrv⟩

theorem emptyValueError_ne (field : String) : emptyValueError field ≠ "primary key is empty" := by
  intro h
  have := congrArg String.data h
  simp [emptyValueError, String.data_append] at this

theorem duplicateValueError_ne (value field : String) :
    duplicateValueError value field ≠ "primary key is empty" := by
  intro h
  have := congrArg String.data h
  simp [duplicateValueError, String.data_append] at this

theorem valueEmpty_isValid_eq_some (field : String) (rows : List Row) (e : String)
    (h : valueEmptyValidator.isValid field rows = some e) : e = emptyValueError field := by
  induction rows with
  | nil => simp [valueEmptyValidator.isValid] at h
  | cons row rows ih =>
    unfold valueEmptyValidator.isValid at h
    split at h
    · simpa using h.symm
    · exact ih h

/-- No validator error is the construction error. -/
theorem validator_isValid_ne (v : validator) (rows : List Row) :
    v.isValid rows ≠ some "primary key is empty" := by
  intro h
  cases v with
  | valueEmptyValidator field =>
    exact emptyValueError_ne field (valueEmpty_isValid_eq_some field rows _ h).symm
  | valueDuplicatesValidator field =>
    obtain ⟨_, row, _, _, _, _, _, he⟩ := valueDuplicates_loop_eq_some field rows [] _ h
    exact duplicateValueError_ne _ field he.symm

/-- The error of `validateRows` is the error of the first validator that fails. -/
theorem validateRowsLoop_eq_some (rows : List Row) (vs : List validator) (e : String)
    (h : validateRowsLoop rows vs = some e) :
    ∃ pre v post, vs = pre ++ v :: post ∧ (∀ u ∈ pre, u.isValid rows = none) ∧
      v.isValid rows = some e := by
  induction vs with
  | nil => simp [validateRowsLoop] at h
  | cons a as ih =>
    unfold validateRowsLoop at h
    cases ha : a.isValid rows with
    | some err =>
      rw [ha] at h
      simp only [Option.some.injEq] at h
      subst h
      exact ⟨[], a, as, rfl, by simp, ha⟩
    | none =>
      rw [ha] at h
      obtain ⟨pre, v, post, hs, hpre, hv⟩ := ih h
      refine ⟨a :: pre, v, post, by rw [hs]; rfl, ?_, hv⟩
      intro u hu
      rcases List.mem_cons.mp hu with rfl | hu
      · exact ha
      · exact hpre u hu

theorem validateRowsLoop_ne (rows : List Row) (vs : List validator) :
    validateRowsLoop rows vs ≠ some "primary key is empty" := by
  intro h
  obtain ⟨_, v, _, _, _, hv⟩ := validateRowsLoop_eq_some rows vs _ h
  exact validator_isValid_ne v rows hv

theorem insert_err_eq (st : stable) (new : List Row) :
    (st.insert new).2.2 =
      match st.validateRows new with
      | some err => some err
      | none =>
        match st.validateRows (st.rows ++ new) with
        | some err => some err
        | none => (st.runTriggers (st.rows ++ new) st.rows).2 := by
  rw [insert_eq]
  cases hv : st.validateRows new with
  | some err => rfl
  | none =>
    have hc := commit_err_eq st (st.rows ++ new)
    cases hc2 : (st.commit (st.rows ++ new)).2 with
    | some err => rw [hc2] at hc; simpa using hc
    | none => rw [hc2] at hc; simpa using hc

theorem mergeRow_of_absent (pk : String) (n : Row) (rows : List Row)
    (h : ∀ r ∈ rows, Row.val r pk ≠ Row.val n pk) : mergeRow pk n rows = rows ++ [n] := by
  induction rows with
  | nil => rfl
  | cons r rs ih =>
    unfold mergeRow
    rw [if_pos (h r (List.mem_cons_self r rs)), ih (fun x hx => h x (List.mem_cons_of_mem r hx))]
    rfl

theorem mergeRow_append_match (pk : String) (n m : Row) (rows : List Row)
    (h : ∀ r ∈ rows, Row.val r pk ≠ Row.val n pk) (hm : Row.val m pk = Row.val n pk) :
    mergeRow pk n (rows ++ [m]) = rows ++ [Row.assign m n] := by
  induction rows with
  | nil =>
    show mergeRow pk n [m] = [Row.assign m n]
    unfold mergeRow
    rw [if_neg (fun hne => hne hm)]
  | cons r rs ih =>
    show mergeRow pk n (r :: (rs ++ [m])) = r :: (rs ++ [Row.assign m n])
    unfold mergeRow
    rw [if_pos (h r (List.mem_cons_self r rs)), ih (fun x hx => h x (List.mem_cons_of_mem r hx))]

theorem mergeRows_append (st : stable) (a b : List Row) :
    ∀ rows : List Row, st.mergeRows rows (a ++ b) = st.mergeRows (st.mergeRows rows a) b := by
  induction a with
  | nil => intro rows; rfl
  | cons x xs ih =>
    intro rows
    show st.mergeRows (mergeRow st.primaryKeyField x rows) (xs ++ b) =
      st.mergeRows (st.mergeRows (mergeRow st.primaryKeyField x rows) xs) b
    exact ih _

/-- The concrete table is what `NewSTable` followed by `AddTrigger` produces. -/
theorem exampleTable_reachable : Reachable "pk" ["nonEmpty"] ["uniq"] exampleTable :=
  Reachable.addTrigger _ (newTestTrigger "pk" "triggerError")
    (@Reachable.init "pk" ["nonEmpty"] ["uniq"] exampleRows
      { primaryKeyField := "pk", rows := exampleRows,
        validators := newValidators "pk" ["nonEmpty"] ["uniq"], triggers := [], calls := [] }
      none rfl)

/-- Both triggers of the quiet table accept every event. -/
theorem quietTable_neverFails : ∀ t ∈ quietTable.triggers, t.neverFails := by
  intro t ht
  have : t = recordingTrigger := by
    simp only [quietTable, List.mem_cons, List.mem_singleton, or_self, List.not_mem_nil,
      or_false] at ht
    exact ht
  subst this
  intro _ _ _ _
  rfl

/-! ## The properties -/

/-- C1. Atomicity of rows: whenever a call to Insert, Upsert, Update or Delete
returns an error (from validation, from the guard on the primary key or from a
trigger), the row set after the call is the row set before it and the returned
count is 0. -/
theorem mutate_error_atomic (st : stable) (m : Mutation) (h : (st.mutate m).2.2 ≠ none) :
    (st.mutate m).1.rows = st.rows ∧ (st.mutate m).2.1 = 0 := by
  cases m with
  | Insert rows => exact insert_atomic st rows h
  | Upsert rows => exact upsert_atomic st rows h
  | Update fields whr => exact update_atomic st fields whr h
  | Delete whr => exact delete_atomic st whr h

/-- An Insert vetoed by the trigger leaves the two rows of the concrete table. -/
theorem mutate_error_atomic_witness :
    (exampleTable.mutate (Mutation.Insert
        [Row.ofList [("pk", "triggerError"), ("nonEmpty", "e1"), ("uniq", "u1")]])).2.2 ≠ none ∧
      ((exampleTable.mutate (Mutation.Insert
        [Row.ofList [("pk", "triggerError"), ("nonEmpty", "e1"), ("uniq", "u1")]])).1.rows
          = exampleTable.rows ∧
       (exampleTable.mutate (Mutation.Insert
        [Row.ofList [("pk", "triggerError"), ("nonEmpty", "e1"), ("uniq", "u1")]])).2.1 = 0) :=
  ⟨by decide, mutate_error_atomic exampleTable _ (by decide)⟩

/-- C2. Reachable-state invariant: in every state reachable from NewSTable by
Insert, Upsert, Update, Delete and AddTrigger calls, successful or failing, every
row has a non-empty primary-key value, no two rows share a primary-key value,
every declared non-empty field is non-empty on every row, and no declared unique
field has the same non-empty value on two rows. -/
theorem reachable_invariant (primaryKeyField : String) (nonEmptyFields uniqFields : List String)
    (st : stable) (h : Reachable primaryKeyField nonEmptyFields uniqFields st) :
    (∀ row ∈ st.rows, Row.val row primaryKeyField ≠ "") ∧
    (∀ (i j : Nat) (hi : i < st.rows.length) (hj : j < st.rows.length), i ≠ j →
      Row.val st.rows[i] primaryKeyField ≠ Row.val st.rows[j] primaryKeyField) ∧
    (∀ field ∈ nonEmptyFields, ∀ row ∈ st.rows, Row.val row field ≠ "") ∧
    (∀ field ∈ uniqFields, ∀ (i j : Nat) (hi : i < st.rows.length) (hj : j < st.rows.length),
      i ≠ j → Row.val st.rows[i] field ≠ "" →
        Row.val st.rows[i] field ≠ Row.val st.rows[j] field) := by
  obtain ⟨hv, hpk⟩ := Reachable_valid _ _ _ st h
  subst hpk
  have hall := hv.2.2
  unfold stable.validateRows at hall
  rw [validateRowsLoop_eq_none, hv.2.1] at hall
  refine ⟨valid_pk_ne_empty st _ _ _ hv hv.2.2, ?_, ?_, ?_⟩
  · intro i j hi hj hij
    exact pairwise_getElem_ne _ (fun a b hab => Ne.symm hab) _
      (valid_pk_pairwise st _ _ _ hv hv.2.2) i j hi hj hij
  · intro field hf
    have := hall (newValueEmptyValidator field)
      (by simp [newValidators]; exact Or.inr (Or.inr (Or.inl ⟨field, hf, rfl⟩)))
    exact (valueEmpty_isValid_eq_none _ _).mp this
  · intro field hf i j hi hj hij hne
    have := hall (newValueDuplicatesValidator field)
      (by simp [newValidators]; exact Or.inr (Or.inr (Or.inr ⟨field, hf, rfl⟩)))
    have hp := (valueDuplicates_isValid_eq_none _ _).mp this
    rcases Nat.lt_or_gt_of_ne hij with hlt | hgt
    · exact List.pairwise_iff_getElem.mp hp i j hi hj hlt hne
    · intro heq
      exact List.pairwise_iff_getElem.mp hp j i hj hi hgt (heq ▸ hne) heq.symm

/-- The invariant on the concrete table after an Upsert and a Delete. -/
theorem reachable_invariant_witness :
    Reachable "pk" ["nonEmpty"] ["uniq"]
        (((exampleTable.mutate (Mutation.Upsert exampleUpsertRows)).1.mutate
          (Mutation.Delete (Row.ofList [("pk", "0")]))).1) ∧
      ((∀ row ∈ (((exampleTable.mutate (Mutation.Upsert exampleUpsertRows)).1.mutate
          (Mutation.Delete (Row.ofList [("pk", "0")]))).1).rows, Row.val row "pk" ≠ "") ∧
       (((exampleTable.mutate (Mutation.Upsert exampleUpsertRows)).1.mutate
          (Mutation.Delete (Row.ofList [("pk", "0")]))).1).rows.length = 2) :=
  ⟨Reachable.mutate _ _ (Reachable.mutate _ _ exampleTable_reachable),
    (reachable_invariant "pk" ["nonEmpty"] ["uniq"] _
      (Reachable.mutate _ _ (Reachable.mutate _ _ exampleTable_reachable))).1,
    by decide⟩

/-- C3. Insert postcondition: when Insert succeeds it returns the length of the
input list, and the row set becomes the previous rows, unchanged and in their
order, followed by the new rows in input order. -/
theorem Insert_postcondition (st : stable) (new : List Row) (h : (st.Insert new).2.2 = none) :
    (st.Insert new).2.1 = new.length ∧ (st.Insert new).1.rows = st.rows ++ new := by
  unfold stable.Insert at h ⊢
  rw [insert_eq] at h ⊢
  cases hv : st.validateRows new with
  | some err => rw [hv] at h; simp at h
  | none =>
    rw [hv] at h
    cases hc : (st.commit (st.rows ++ new)).2 with
    | some err => rw [hc] at h; simp at h
    | none => exact ⟨rfl, (commit_rows_of_ok st _ hc).1⟩

/-- Inserting one row with a fresh key into the concrete table. -/
theorem Insert_postcondition_witness :
    (exampleTable.Insert [Row.ofList [("pk", "2"), ("nonEmpty", "e2"), ("uniq", "u2")]]).2.2
        = none ∧
      ((exampleTable.Insert [Row.ofList [("pk", "2"), ("nonEmpty", "e2"), ("uniq", "u2")]]).2.1
          = [Row.ofList [("pk", "2"), ("nonEmpty", "e2"), ("uniq", "u2")]].length ∧
       (exampleTable.Insert [Row.ofList [("pk", "2"), ("nonEmpty", "e2"), ("uniq", "u2")]]).1.rows
          = exampleTable.rows ++ [Row.ofList [("pk", "2"), ("nonEmpty", "e2"), ("uniq", "u2")]]) :=
  ⟨by decide, Insert_postcondition exampleTable _ (by decide)⟩

/-- C4. Upsert is a field-level merge: on a table in a valid state, a successful
Upsert leaves the old rows in their order, each old row whose primary key is that
of an incoming row having that row's fields overwritten and its other fields
kept, followed by the incoming rows whose primary key matched no old row, in
input order. The second part says what overwriting does to each field. -/
theorem Upsert_field_level_merge (st : stable) (nonEmptyFields uniqFields : List String)
    (new : List Row) (hv : st.valid nonEmptyFields uniqFields)
    (hok : (st.Upsert new).2.2 = none) :
    (st.Upsert new).1.rows = upsertSpec st.primaryKeyField st.rows new ∧
      ∀ (row n : Row) (field : String),
        Finmap.lookup field (Row.assign row n) =
          match Finmap.lookup field n with
          | some value => some value
          | none => Finmap.lookup field row := by
  obtain ⟨h1, h2, _⟩ := upsert_ok st new hok
  refine ⟨?_, lookup_assign⟩
  show (st.upsert new).1.rows = _
  rw [h2]
  exact mergeRows_eq_upsertSpec st new st.rows
    (valid_pk_pairwise st _ _ _ hv hv.2.2) (valid_pk_pairwise st _ _ _ hv h1)

/-- The merge of the test suite: the row with key "1" keeps its unique field. -/
theorem Upsert_field_level_merge_witness :
    (exampleTable.valid ["nonEmpty"] ["uniq"] ∧ (exampleTable.Upsert exampleUpsertRows).2.2 = none) ∧
      (exampleTable.Upsert exampleUpsertRows).1.rows =
        [Row.ofList [("pk", "0"), ("nonEmpty", "e0"), ("uniq", "u0")],
         Row.ofList [("pk", "1"), ("nonEmpty", "e11"), ("uniq", "u1"), ("new", "n11")],
         Row.ofList [("pk", "2"), ("nonEmpty", "e2"), ("uniq", "u2")]] :=
  ⟨⟨by decide, by decide⟩,
    ((Upsert_field_level_merge exampleTable ["nonEmpty"] ["uniq"] exampleUpsertRows
      (by decide) (by decide)).1).trans (by decide)⟩

/-- C5, as amended. Upsert validates the input rows on their own before it
validates the merged candidate set: its error is the validator error of the
input rows alone if there is one, otherwise the validator error of the merged
row set if there is one, and otherwise the outcome of trigger dispatch. -/
theorem Upsert_error_order (st : stable) (new : List Row) :
    (st.Upsert new).2.2 =
      match st.validateRows new with
      | some err => some err
      | none =>
        match st.validateRows (st.mergeRows st.rows new) with
        | some err => some err
        | none => (st.runTriggers (st.mergeRows st.rows new) st.rows).2 :=
  upsert_err_eq st new

/-- C5, as stated, fails: a partial row for the stored key "1" is rejected with
a constraint error although the merged row set passes every validator. -/
theorem Upsert_rejects_valid_merge :
    Reachable "pk" ["nonEmpty"] ["uniq"] exampleTable ∧
      (exampleTable.Upsert examplePartialRows).2.2 = some (emptyValueError "nonEmpty") ∧
      exampleTable.mergeRows exampleTable.rows examplePartialRows =
        [Row.ofList [("pk", "0"), ("nonEmpty", "e0"), ("uniq", "u0")],
         Row.ofList [("pk", "1"), ("nonEmpty", "e1"), ("uniq", "u1"), ("new", "n11")]] ∧
      exampleTable.validateRows (exampleTable.mergeRows exampleTable.rows examplePartialRows)
        = none :=
  ⟨exampleTable_reachable, by decide⟩

/-- C6, as amended. Insert validates the new rows on their own before it
validates the full candidate set: its error is the validator error of the new
rows alone if there is one, otherwise the validator error of the current rows
followed by the new rows if there is one, and otherwise the outcome of trigger
dispatch. -/
theorem Insert_error_order (st : stable) (new : List Row) :
    (st.Insert new).2.2 =
      match st.validateRows new with
      | some err => some err
      | none =>
        match st.validateRows (st.rows ++ new) with
        | some err => some err
        | none => (st.runTriggers (st.rows ++ new) st.rows).2 := by
  unfold stable.Insert
  rw [insert_eq]
  cases hv : st.validateRows new with
  | some err => rfl
  | none =>
    have hc := commit_err_eq st (st.rows ++ new)
    cases hc2 : (st.commit (st.rows ++ new)).2 with
    | some err => rw [hc2] at hc; simpa using hc
    | none => rw [hc2] at hc; simpa using hc

/-- C6, as stated, fails: for a new row that repeats the stored key "1" and has
no non-empty field, Insert reports the empty value, while the validators report
the duplicate key for the full candidate set. -/
theorem Insert_error_not_full_set :
    Reachable "pk" ["nonEmpty"] ["uniq"] exampleTable ∧
      (exampleTable.Insert exampleClashRows).2.2 = some (emptyValueError "nonEmpty") ∧
      exampleTable.validateRows (exampleTable.rows ++ exampleClashRows)
        = some (duplicateValueError "1" "pk") ∧
      (exampleTable.Insert exampleClashRows).2.2 ≠
        exampleTable.validateRows (exampleTable.rows ++ exampleClashRows) :=
  ⟨exampleTable_reachable, by decide⟩

/-- C7. Forbidden primary-key update: when the field map has the primary key
field as a key, whatever its value and whatever the where map, Update returns
count 0 with the error "update of primary key is forbidden" and the table is as
before: same rows and no `Handle` call added to the trace. -/
theorem Update_primary_key_forbidden (st : stable) (fields whr : Row)
    (h : st.primaryKeyField ∈ fields) :
    st.Update fields whr = (st, 0, some "update of primary key is forbidden") := by
  unfold stable.Update stable.update
  rw [if_pos (Finmap.lookup_isSome.mpr h)]

/-- The case of the test suite: setting the key of the row "0" to "2". -/
theorem Update_primary_key_forbidden_witness :
    exampleTable.primaryKeyField ∈ Row.ofList [("pk", "2")] ∧
      exampleTable.Update (Row.ofList [("pk", "2")]) (Row.ofList [("pk", "0")]) =
        (exampleTable, 0, some "update of primary key is forbidden") :=
  ⟨by decide, Update_primary_key_forbidden exampleTable _ _ (by decide)⟩

/-- C8. Update postcondition: on a table in a valid state, with a field map that
does not contain the primary key field, a successful Update keeps the length and
the order of the row set; at every position a row that matched the where map has
every field of the field map overwritten and its other fields as before, and a
row that did not match is unchanged. -/
theorem Update_postcondition (st : stable) (nonEmptyFields uniqFields : List String)
    (fields whr : Row) (hv : st.valid nonEmptyFields uniqFields)
    (hpk : st.primaryKeyField ∉ fields) (hok : (st.Update fields whr).2.2 = none) :
    (st.Update fields whr).1.rows.length = st.rows.length ∧
    ∀ (i : Nat) (row : Row), st.rows[i]? = some row →
      ∃ row1, (st.Update fields whr).1.rows[i]? = some row1 ∧
        (rowMatches whr row = true → ∀ field,
          Finmap.lookup field row1 =
            match Finmap.lookup field fields with
            | some value => some value
            | none => Finmap.lookup field row) ∧
        (rowMatches whr row = false → row1 = row) := by
  have h := update_ok_rows st nonEmptyFields uniqFields fields whr hv hpk hok
  unfold stable.Update
  rw [h]
  refine ⟨List.length_map _ _, ?_⟩
  intro i row hi
  refine ⟨_, by rw [List.getElem?_map, hi]; rfl, ?_, ?_⟩
  · intro hm field
    show Finmap.lookup field (if rowMatches whr row = true then Row.assign row fields else row) = _
    rw [if_pos hm]
    exact lookup_assign row fields field
  · intro hm
    show (if rowMatches whr row = true then Row.assign row fields else row) = row
    rw [hm]
    rfl

/-- Updating the row selected by its unique field, in the concrete table. -/
theorem Update_postcondition_witness :
    (exampleTable.valid ["nonEmpty"] ["uniq"] ∧
      exampleTable.primaryKeyField ∉ Row.ofList [("nonEmpty", "x"), ("extra", "y")] ∧
      (exampleTable.Update (Row.ofList [("nonEmpty", "x"), ("extra", "y")])
        (Row.ofList [("uniq", "u0")])).2.2 = none) ∧
      (exampleTable.Update (Row.ofList [("nonEmpty", "x"), ("extra", "y")])
        (Row.ofList [("uniq", "u0")])).1.rows.length = exampleTable.rows.length ∧
      (exampleTable.Update (Row.ofList [("nonEmpty", "x"), ("extra", "y")])
        (Row.ofList [("uniq", "u0")])).1.rows =
        [Row.ofList [("pk", "0"), ("nonEmpty", "x"), ("uniq", "u0"), ("extra", "y")],
         Row.ofList [("pk", "1"), ("nonEmpty", "e1"), ("uniq", "u1")]] :=
  ⟨⟨by decide, by decide, by decide⟩,
    (Update_postcondition exampleTable ["nonEmpty"] ["uniq"]
      (Row.ofList [("nonEmpty", "x"), ("extra", "y")]) (Row.ofList [("uniq", "u0")])
      (by decide) (by decide) (by decide)).1,
    by decide⟩

/-- C9. Update's affected count: with a field map that does not contain the
primary key field, a successful Update returns the number of rows of the
pre-call row set that match the where map (0 when none does), whether or not a
field value changed. -/
theorem Update_count (st : stable) (fields whr : Row)
    (hpk : st.primaryKeyField ∉ fields) (hok : (st.Update fields whr).2.2 = none) :
    (st.Update fields whr).2.1 = (st.rows.filter (rowMatches whr)).length := by
  unfold stable.Update stable.update at hok ⊢
  have hpk2 : ¬ (Finmap.lookup st.primaryKeyField fields).isSome = true :=
    fun h => hpk (Finmap.lookup_isSome.mp h)
  rw [if_neg hpk2] at hok ⊢
  rw [← selectRows_eq_filter]
  by_cases hlen : (st.selectRows whr).length = 0
  · rw [if_pos hlen, hlen]
  · rw [if_neg hlen] at hok ⊢
    rw [(upsert_ok st _ hok).2.2, List.length_map]

/-- Updating both rows of the concrete table (empty where map) counts two. -/
theorem Update_count_witness :
    (exampleTable.primaryKeyField ∉ Row.ofList [("extra", "y")] ∧
      (exampleTable.Update (Row.ofList [("extra", "y")]) ∅).2.2 = none) ∧
      (exampleTable.Update (Row.ofList [("extra", "y")]) ∅).2.1 =
        (exampleTable.rows.filter (rowMatches ∅)).length ∧
      (exampleTable.rows.filter (rowMatches ∅)).length = 2 :=
  ⟨⟨by decide, by decide⟩,
    Update_count exampleTable (Row.ofList [("extra", "y")]) ∅ (by decide) (by decide),
    by decide⟩

/-- C10, as amended. No-op suppression: on a table in a valid state, an Update
whose field map does not contain the primary key field and assigns to every
matched row values that row already holds succeeds with the number of matched
rows as its count and leaves the table as before: same rows and no `Handle` call
added to the trace. -/
theorem Update_noop (st : stable) (nonEmptyFields uniqFields : List String)
    (fields whr : Row) (hv : st.valid nonEmptyFields uniqFields)
    (hpk : st.primaryKeyField ∉ fields)
    (hsame : ∀ row ∈ st.rows, rowMatches whr row = true →
      ∀ field ∈ Finmap.keys fields, Finmap.lookup field row = Finmap.lookup field fields) :
    st.Update fields whr = (st, (st.rows.filter (rowMatches whr)).length, none) := by
  have hsame1 : ∀ row ∈ st.rows, rowMatches whr row = true →
      ∀ field value, Finmap.lookup field fields = some value →
        Finmap.lookup field row = some value := by
    intro row hrow hm field value hf
    rw [hsame row hrow hm field (Finmap.mem_keys.mpr (Finmap.mem_of_lookup_eq_some hf)), hf]
  have hd := valid_pk_pairwise st _ _ _ hv hv.2.2
  have hupd : (st.selectRows whr).map (fun row => Row.assign row fields) = st.selectRows whr := by
    calc (st.selectRows whr).map (fun row => Row.assign row fields)
        = (st.selectRows whr).map (fun row => row) := by
          apply List.map_congr_left
          intro row hrow
          rw [selectRows_eq_filter, List.mem_filter] at hrow
          exact assign_eq_self row fields (hsame1 row hrow.1 hrow.2)
      _ = st.selectRows whr := by simp
  have hmerge : st.mergeRows st.rows (st.selectRows whr) = st.rows := by
    have := mergeRows_updated st fields whr hd hpk
    rw [hupd] at this
    rw [this]
    calc List.map (fun row => if rowMatches whr row = true then Row.assign row fields else row)
          st.rows
        = List.map (fun row => row) st.rows := by
          apply List.map_congr_left
          intro row hrow
          by_cases hm : rowMatches whr row = true
          · rw [if_pos hm]; exact assign_eq_self row fields (hsame1 row hrow hm)
          · rw [if_neg hm]
      _ = st.rows := by simp
  have hsub : st.validateRows (st.selectRows whr) = none := by
    rw [selectRows_eq_filter]
    exact validateRows_sublist st st.rows _ (List.filter_sublist st.rows) hv.2.2
  unfold stable.Update stable.update
  have hpk2 : ¬ (Finmap.lookup st.primaryKeyField fields).isSome = true :=
    fun h => hpk (Finmap.lookup_isSome.mp h)
  rw [if_neg hpk2, ← selectRows_eq_filter]
  by_cases hlen : (st.selectRows whr).length = 0
  · rw [if_pos hlen, hlen]
  · rw [if_neg hlen, hupd, upsert_eq, hsub, hmerge, commit_self st hd hv.2.2]

/-- The case of the test suite: writing to the row "0" the value it has. -/
theorem Update_noop_witness :
    (exampleTable.valid ["nonEmpty"] ["uniq"] ∧
      exampleTable.primaryKeyField ∉ Row.ofList [("nonEmpty", "e0")] ∧
      ∀ row ∈ exampleTable.rows, rowMatches (Row.ofList [("pk", "0")]) row = true →
        ∀ field ∈ Finmap.keys (Row.ofList [("nonEmpty", "e0")]),
          Finmap.lookup field row = Finmap.lookup field (Row.ofList [("nonEmpty", "e0")])) ∧
      exampleTable.Update (Row.ofList [("nonEmpty", "e0")]) (Row.ofList [("pk", "0")]) =
        (exampleTable, (exampleTable.rows.filter (rowMatches (Row.ofList [("pk", "0")]))).length,
          none) ∧
      (exampleTable.rows.filter (rowMatches (Row.ofList [("pk", "0")]))).length = 1 :=
  ⟨⟨by decide, by decide, by decide⟩,
    Update_noop exampleTable ["nonEmpty"] ["uniq"] (Row.ofList [("nonEmpty", "e0")])
      (Row.ofList [("pk", "0")]) (by decide) (by decide) (by decide),
    by decide⟩

/-- C10, as stated, fails: the field map that assigns to the row "0" the key it
already has matches one row, every value it assigns is already held, and the
Update does not succeed with count 1 but is refused with count 0. -/
theorem Update_noop_primary_key :
    Reachable "pk" ["nonEmpty"] ["uniq"] exampleTable ∧
      exampleTable.valid ["nonEmpty"] ["uniq"] ∧
      (exampleTable.rows.filter (rowMatches (Row.ofList [("pk", "0")]))).length = 1 ∧
      (∀ row ∈ exampleTable.rows, rowMatches (Row.ofList [("pk", "0")]) row = true →
        ∀ field ∈ Finmap.keys (Row.ofList [("pk", "0")]),
          Finmap.lookup field row = Finmap.lookup field (Row.ofList [("pk", "0")])) ∧
      (exampleTable.Update (Row.ofList [("pk", "0")]) (Row.ofList [("pk", "0")])).2 =
        (0, some "update of primary key is forbidden") :=
  ⟨exampleTable_reachable, by decide⟩

/-- C11. Event derivation: for every pair of new and old row sets, when the
registered triggers never fail, dispatch makes exactly these `Handle` calls, each
event going to every trigger in registration order: for each row of new in
order, Insert(row, nil) if no old row has its primary-key value, Update(row, old
row) if the first old row with its primary-key value differs from it, nothing if
the two are equal; then, for each row of old in order, Delete(nil, row) if no
new row has its primary-key value. -/
theorem runTriggers_event_derivation (st : stable) (new old : List Row)
    (h : ∀ t ∈ st.triggers, t.neverFails) :
    st.runTriggers new old =
      (st.calls ++ broadcast st.triggers.length (eventsSpec st.primaryKeyField new old),
        none) :=
  runTriggers_neverFails st new old h

/-- One Update, one Insert and one Delete, each delivered to both triggers. -/
theorem runTriggers_event_derivation_witness :
    (∀ t ∈ quietTable.triggers, t.neverFails) ∧
      quietTable.runTriggers exampleCandidate exampleRows =
        ([⟨0, OperationUpdate,
            some (Row.ofList [("pk", "0"), ("nonEmpty", "changed"), ("uniq", "u0")]),
            some (Row.ofList [("pk", "0"), ("nonEmpty", "e0"), ("uniq", "u0")]), none⟩,
          ⟨1, OperationUpdate,
            some (Row.ofList [("pk", "0"), ("nonEmpty", "changed"), ("uniq", "u0")]),
            some (Row.ofList [("pk", "0"), ("nonEmpty", "e0"), ("uniq", "u0")]), none⟩,
          ⟨0, OperationInsert,
            some (Row.ofList [("pk", "2"), ("nonEmpty", "e2"), ("uniq", "u2")]), none, none⟩,
          ⟨1, OperationInsert,
            some (Row.ofList [("pk", "2"), ("nonEmpty", "e2"), ("uniq", "u2")]), none, none⟩,
          ⟨0, OperationDelete, none,
            some (Row.ofList [("pk", "1"), ("nonEmpty", "e1"), ("uniq", "u1")]), none⟩,
          ⟨1, OperationDelete, none,
            some (Row.ofList [("pk", "1"), ("nonEmpty", "e1"), ("uniq", "u1")]), none⟩],
          none) :=
  ⟨quietTable_neverFails,
    (runTriggers_event_derivation quietTable exampleCandidate exampleRows
      quietTable_neverFails).trans (by decide)⟩

/-- C12. Trigger veto: in a commit whose candidate rows pass validation the
`Handle` calls follow the schedule (every event in turn, to the triggers in
registration order). Without an error all scheduled calls are made and the rows
are replaced. With an error the calls made are the scheduled ones up to the
first call that returns an error, none after it; commit returns exactly that
error and keeps the rows. A mutating call that makes a `Handle` call is one such
commit of its candidate row set and returns the error of that commit. -/
theorem commit_trigger_veto (st : stable) (rows : List Row)
    (hv : st.validateRows rows = none) :
    ((st.commit rows).2 = none →
      st.commit rows =
        ({ st with
            rows := rows,
            calls := st.calls ++
              (schedule st.triggers (eventsSpec st.primaryKeyField rows st.rows)).map accepted },
          none)) ∧
    (∀ e, (st.commit rows).2 = some e →
      ∃ done i t ev rest,
        schedule st.triggers (eventsSpec st.primaryKeyField rows st.rows) =
          done ++ (i, t, ev) :: rest ∧
        t.Handle (st.calls ++ done.map accepted) ev.operation ev.new ev.old = some e ∧
        st.commit rows =
          ({ st with calls := st.calls ++ done.map accepted ++ [ev.record i (some e)] },
            some e)) ∧
    (∀ m : Mutation, (st.mutate m).1.calls ≠ st.calls →
      st.validateRows (st.candidateRows m) = none ∧
      (st.mutate m).1 = (st.commit (st.candidateRows m)).1 ∧
      (st.mutate m).2.2 = (st.commit (st.candidateRows m)).2) := by
  have hc := commit_of_valid st rows hv
  rw [runTriggers_eq_deliver] at hc
  refine ⟨?_, ?_, ?_⟩
  · intro hok
    rcases hd : deliver (schedule st.triggers (eventsSpec st.primaryKeyField rows st.rows))
      st.calls with ⟨calls1, _ | err⟩
    · rw [hd] at hc
      have h1 := deliver_ok _ st.calls (by rw [hd])
      rw [hd] at h1
      simp only at h1 hc
      rw [hc, h1]
    · rw [hd] at hc
      rw [hc] at hok
      simp at hok
  · intro e he
    rcases hd : deliver (schedule st.triggers (eventsSpec st.primaryKeyField rows st.rows))
      st.calls with ⟨calls1, _ | err⟩
    · rw [hd] at hc
      rw [hc] at he
      simp at he
    · rw [hd] at hc
      have hee : err = e := by
        rw [hc] at he
        simpa using he
      subst hee
      obtain ⟨done, i, t, ev, rest, hs, hh, hcalls⟩ := deliver_err _ st.calls err (by rw [hd])
      rw [hd] at hcalls
      simp only at hcalls hc
      exact ⟨done, i, t, ev, rest, hs, hh, by rw [hc, hcalls]⟩
  · intro m hm
    rcases mutate_cases st m with h | h
    · exact absurd (by rw [h]) hm
    · exact h

/-- The test trigger accepts the Insert of row "2" and vetoes the next one. -/
theorem commit_trigger_veto_witness :
    exampleTable.validateRows (exampleTable.rows ++ exampleVetoRows) = none ∧
      ∃ done i t ev rest,
        schedule exampleTable.triggers
            (eventsSpec exampleTable.primaryKeyField (exampleTable.rows ++ exampleVetoRows)
              exampleTable.rows) =
          done ++ (i, t, ev) :: rest ∧
        t.Handle (exampleTable.calls ++ done.map accepted) ev.operation ev.new ev.old =
          some "trigger error" ∧
        exampleTable.commit (exampleTable.rows ++ exampleVetoRows) =
          ({ exampleTable with
              calls := exampleTable.calls ++ done.map accepted ++
                [ev.record i (some "trigger error")] },
            some "trigger error") :=
  ⟨by decide,
    (commit_trigger_veto exampleTable (exampleTable.rows ++ exampleVetoRows) (by decide)).2.1
      "trigger error" (by decide)⟩

/-- C13. Triggers never see an invalid row set: a mutating call whose candidate
row set fails a validator leaves the table as it was, trace of `Handle` calls
included, so no `Handle` call is made during that call. -/
theorem invalid_candidate_no_Handle (st : stable) (m : Mutation)
    (h : st.validateRows (st.candidateRows m) ≠ none) : (st.mutate m).1 = st := by
  rcases mutate_cases st m with h1 | h1
  · exact h1
  · exact absurd h1.1 h

/-- An Insert that repeats a unique value: no trigger is called. -/
theorem invalid_candidate_no_Handle_witness :
    exampleTable.validateRows (exampleTable.candidateRows (Mutation.Insert
        [Row.ofList [("pk", "2"), ("nonEmpty", "e2"), ("uniq", "u0")]])) ≠ none ∧
      (exampleTable.mutate (Mutation.Insert
        [Row.ofList [("pk", "2"), ("nonEmpty", "e2"), ("uniq", "u0")]])).1 = exampleTable :=
  ⟨by decide, invalid_candidate_no_Handle exampleTable _ (by decide)⟩

/-- C14, as amended. A mutating call that fails because a trigger returned an
error keeps the rows, but the `Handle` calls scheduled before the failing one
were made and accepted and are not undone: the trace after the call is the trace
before it, then those accepted calls in schedule order, then the failing call,
and no call after it. -/
theorem failed_mutation_trace (st : stable) (m : Mutation) (e : String)
    (herr : (st.mutate m).2.2 = some e) (hcall : (st.mutate m).1.calls ≠ st.calls) :
    ∃ done i t ev rest,
      schedule st.triggers (eventsSpec st.primaryKeyField (st.candidateRows m) st.rows) =
        done ++ (i, t, ev) :: rest ∧
      t.Handle (st.calls ++ done.map accepted) ev.operation ev.new ev.old = some e ∧
      (st.mutate m).1.calls = st.calls ++ done.map accepted ++ [ev.record i (some e)] ∧
      (st.mutate m).1.rows = st.rows := by
  rcases mutate_cases st m with h | ⟨hv, h1, h2⟩
  · exact absurd (by rw [h]) hcall
  · rw [h2] at herr
    have hc := commit_of_valid st (st.candidateRows m) hv
    rw [runTriggers_eq_deliver] at hc
    rcases hd : deliver (schedule st.triggers
      (eventsSpec st.primaryKeyField (st.candidateRows m) st.rows)) st.calls
      with ⟨calls1, _ | err⟩
    · rw [hd] at hc
      rw [hc] at herr
      simp at herr
    · rw [hd] at hc
      have hee : err = e := by
        rw [hc] at herr
        simpa using herr
      subst hee
      obtain ⟨done, i, t, ev, rest, hs, hh, hcalls⟩ := deliver_err _ st.calls err (by rw [hd])
      rw [hd] at hcalls
      simp only at hcalls hc
      refine ⟨done, i, t, ev, rest, hs, hh, ?_, ?_⟩
      · rw [h1, hc, hcalls]
      · rw [h1, hc]

/-- The Insert of two rows whose second row the test trigger refuses. -/
theorem failed_mutation_trace_witness :
    ((exampleTable.mutate (Mutation.Insert exampleVetoRows)).2.2 = some "trigger error" ∧
      (exampleTable.mutate (Mutation.Insert exampleVetoRows)).1.calls ≠ exampleTable.calls) ∧
      ∃ done i t ev rest,
        schedule exampleTable.triggers
            (eventsSpec exampleTable.primaryKeyField
              (exampleTable.candidateRows (Mutation.Insert exampleVetoRows))
              exampleTable.rows) =
          done ++ (i, t, ev) :: rest ∧
        t.Handle (exampleTable.calls ++ done.map accepted) ev.operation ev.new ev.old =
          some "trigger error" ∧
        (exampleTable.mutate (Mutation.Insert exampleVetoRows)).1.calls =
          exampleTable.calls ++ done.map accepted ++ [ev.record i (some "trigger error")] ∧
        (exampleTable.mutate (Mutation.Insert exampleVetoRows)).1.rows = exampleTable.rows :=
  ⟨⟨by decide, by decide⟩,
    failed_mutation_trace exampleTable (Mutation.Insert exampleVetoRows) "trigger error"
      (by decide) (by decide)⟩

/-- C14, as stated, fails: the Insert of two rows fails on the second row with
the trigger's error, after the trigger accepted the Insert event of the first
row; the trace of the triggers is not what it was before the call. -/
theorem failed_Insert_keeps_accepted_call :
    Reachable "pk" ["nonEmpty"] ["uniq"] exampleTable ∧
      (exampleTable.Insert exampleVetoRows).2 = (0, some "trigger error") ∧
      (exampleTable.Insert exampleVetoRows).1.calls =
        exampleTable.calls ++
          [⟨0, OperationInsert,
              some (Row.ofList [("pk", "2"), ("nonEmpty", "e2"), ("uniq", "u2")]), none, none⟩,
            ⟨0, OperationInsert,
              some (Row.ofList [("pk", "triggerError"), ("nonEmpty", "e3"), ("uniq", "u3")]),
              none, some "trigger error"⟩] ∧
      (exampleTable.Insert exampleVetoRows).1.calls ≠ exampleTable.calls :=
  ⟨exampleTable_reachable, by decide⟩

/-- C15. Select semantics: Select returns, in stored order, the rows that match
the where map, and the NoRows error with no rows exactly when there is none; a
row matches when every key of the where map is present in it with the same
value, so a condition on the empty string does not match a row without the
field; an empty where map selects every row. -/
theorem Select_semantics (st : stable) (whr : Row) :
    st.Select whr =
        (if st.rows.filter (rowMatches whr) = [] then (none, some ErrNoRows)
          else (some (st.rows.filter (rowMatches whr)), none)) ∧
      (∀ row, rowMatches whr row = true ↔
        ∀ field value, Finmap.lookup field whr = some value →
          Finmap.lookup field row = some value) ∧
      (∀ row field, Finmap.lookup field whr = some "" → Finmap.lookup field row = none →
        rowMatches whr row = false) ∧
      st.rows.filter (rowMatches ∅) = st.rows := by
  refine ⟨?_, rowMatches_iff whr, ?_, ?_⟩
  · unfold stable.Select
    rw [selectRows_eq_filter]
    by_cases h : st.rows.filter (rowMatches whr) = []
    · rw [if_pos h, h]
      rfl
    · rw [if_neg h, if_neg (fun hl => h (List.length_eq_zero.mp hl))]
  · intro row field hw hr
    apply Bool.eq_false_iff.mpr
    intro hm
    have := (rowMatches_iff whr row).mp hm field "" hw
    rw [hr] at this
    cases this
  · rw [List.filter_eq_self]
    exact fun row _ => rowMatches_empty row

/-- C16. SelectAny returns the first match: it fails with NoRows exactly when
Select fails with NoRows, and when Select returns a list it returns the first row
of that list. -/
theorem SelectAny_first_match (st : stable) (whr : Row) :
    ((st.SelectAny whr).2 = some ErrNoRows ↔ (st.Select whr).2 = some ErrNoRows) ∧
      (∀ rows, st.Select whr = (some rows, none) →
        ∃ row rest, rows = row :: rest ∧ st.SelectAny whr = (some row, none)) ∧
      ((st.Select whr).2 = some ErrNoRows → st.SelectAny whr = (none, some ErrNoRows)) := by
  unfold stable.SelectAny stable.Select stable.selectAny
  cases h : st.selectRows whr with
  | nil => simp
  | cons row rest =>
    simp only [List.length_cons, Nat.add_one_ne_zero, ↓reduceIte, Prod.mk.injEq,
      Option.some.injEq, and_true, reduceCtorEq, false_imp_iff, iff_self, true_and]
    intro rows hrows
    exact ⟨row, rest, hrows.symm, rfl⟩

/-- C17. Delete postcondition: on a table in a valid state a successful Delete
leaves the old rows that do not match the where map, in their order; the count is
the number of old rows that match, and count plus remaining rows is the old
number of rows. -/
theorem Delete_postcondition (st : stable) (nonEmptyFields uniqFields : List String)
    (whr : Row) (hv : st.valid nonEmptyFields uniqFields)
    (hok : (st.Delete whr).2.2 = none) :
    (st.Delete whr).1.rows = st.rows.filter (fun row => !rowMatches whr row) ∧
      (st.Delete whr).2.1 = (st.rows.filter (rowMatches whr)).length ∧
      (st.Delete whr).2.1 + (st.Delete whr).1.rows.length = st.rows.length := by
  have hd := valid_pk_pairwise st _ _ _ hv hv.2.2
  have hlen := length_filter_add_length_filter_not (rowMatches whr) st.rows
  have key : (st.Delete whr).1.rows = st.rows.filter (fun row => !rowMatches whr row) ∧
      (st.Delete whr).2.1 = (st.rows.filter (rowMatches whr)).length := by
    unfold stable.Delete at hok ⊢
    rw [delete_eq] at hok ⊢
    rw [selectRows_eq_filter] at hok ⊢
    by_cases hsel : (st.rows.filter (rowMatches whr)).length = 0
    · rw [if_pos hsel, hsel]
      refine ⟨?_, rfl⟩
      rw [List.length_eq_zero, List.filter_eq_nil_iff] at hsel
      symm
      rw [List.filter_eq_self]
      intro row hrow
      simpa using hsel row hrow
    · rw [if_neg hsel] at hok ⊢
      rw [deleteRows_filter st _ st.rows hd] at hok ⊢
      cases hc : (st.commit (st.rows.filter (fun row => !rowMatches whr row))).2 with
      | some err => rw [hc] at hok; simp at hok
      | none => exact ⟨(commit_rows_of_ok st _ hc).1, rfl⟩
  refine ⟨key.1, key.2, ?_⟩
  rw [key.1, key.2]
  exact hlen

/-- Deleting the row selected by its unique field from the concrete table. -/
theorem Delete_postcondition_witness :
    (exampleTable.valid ["nonEmpty"] ["uniq"] ∧
      (exampleTable.Delete (Row.ofList [("uniq", "u0")])).2.2 = none) ∧
      ((exampleTable.Delete (Row.ofList [("uniq", "u0")])).1.rows =
          exampleTable.rows.filter (fun row => !rowMatches (Row.ofList [("uniq", "u0")]) row) ∧
        (exampleTable.Delete (Row.ofList [("uniq", "u0")])).2.1 =
          (exampleTable.rows.filter (rowMatches (Row.ofList [("uniq", "u0")]))).length ∧
        (exampleTable.Delete (Row.ofList [("uniq", "u0")])).2.1 +
          (exampleTable.Delete (Row.ofList [("uniq", "u0")])).1.rows.length =
            exampleTable.rows.length) ∧
      (exampleTable.Delete (Row.ofList [("uniq", "u0")])).1.rows =
        [Row.ofList [("pk", "1"), ("nonEmpty", "e1"), ("uniq", "u1")]] :=
  ⟨⟨by decide, by decide⟩,
    Delete_postcondition exampleTable ["nonEmpty"] ["uniq"] (Row.ofList [("uniq", "u0")])
      (by decide) (by decide),
    by decide⟩

/-- C18. Delete events: on a table in a valid state whose triggers never fail,
Delete succeeds and the `Handle` calls it makes are one Delete(nil, row) per
removed row, in stored order, to every trigger in registration order, and no
Insert or Update call; after Delete with an empty where map, Select with an
empty where map fails with NoRows. -/
theorem Delete_events (st : stable) (nonEmptyFields uniqFields : List String) (whr : Row)
    (hv : st.valid nonEmptyFields uniqFields) (hq : ∀ t ∈ st.triggers, t.neverFails) :
    (st.Delete whr).2.2 = none ∧
      (st.Delete whr).1.calls =
        st.calls ++ broadcast st.triggers.length
          ((st.rows.filter (rowMatches whr)).map
            (fun row => ⟨OperationDelete, none, some row⟩)) ∧
      (st.Delete ∅).1.Select ∅ = (none, some ErrNoRows) := by
  have hdel : ∀ w : Row, (st.Delete w).2.2 = none ∧
      (st.Delete w).1.rows = st.rows.filter (fun row => !rowMatches w row) ∧
      (st.Delete w).1.calls =
        st.calls ++ broadcast st.triggers.length
          ((st.rows.filter (rowMatches w)).map
            (fun row => ⟨OperationDelete, none, some row⟩)) := by
    intro w
    unfold stable.Delete
    by_cases hsel : (st.selectRows w).length = 0
    · have h0 : st.delete w = (st, 0, none) := by
        unfold stable.delete
        rw [if_pos hsel]
      rw [h0]
      rw [selectRows_eq_filter, List.length_eq_zero] at hsel
      refine ⟨rfl, ?_, ?_⟩
      · symm
        rw [List.filter_eq_self]
        intro row hrow
        simpa using (List.filter_eq_nil_iff.mp hsel) row hrow
      · rw [hsel]
        simp [broadcast]
    · rw [delete_neverFails st _ _ w hv hq hsel]
      exact ⟨rfl, rfl, rfl⟩
  refine ⟨(hdel whr).1, (hdel whr).2.2, ?_⟩
  have hrows : (st.Delete ∅).1.rows = [] := by
    rw [(hdel ∅).2.1, List.filter_eq_nil_iff]
    intro row _
    simp [rowMatches_empty row]
  unfold stable.Select
  rw [selectRows_eq_filter, hrows]
  rfl

/-- Deleting both rows of the quiet table: two events for each of two triggers. -/
theorem Delete_events_witness :
    (quietTable.valid ["nonEmpty"] ["uniq"] ∧ ∀ t ∈ quietTable.triggers, t.neverFails) ∧
      ((quietTable.Delete ∅).2.2 = none ∧
        (quietTable.Delete ∅).1.calls =
          quietTable.calls ++ broadcast quietTable.triggers.length
            ((quietTable.rows.filter (rowMatches ∅)).map
              (fun row => ⟨OperationDelete, none, some row⟩)) ∧
        (quietTable.Delete ∅).1.Select ∅ = (none, some ErrNoRows)) ∧
      (quietTable.Delete ∅).1.calls =
        [⟨0, OperationDelete, none,
            some (Row.ofList [("pk", "0"), ("nonEmpty", "e0"), ("uniq", "u0")]), none⟩,
          ⟨1, OperationDelete, none,
            some (Row.ofList [("pk", "0"), ("nonEmpty", "e0"), ("uniq", "u0")]), none⟩,
          ⟨0, OperationDelete, none,
            some (Row.ofList [("pk", "1"), ("nonEmpty", "e1"), ("uniq", "u1")]), none⟩,
          ⟨1, OperationDelete, none,
            some (Row.ofList [("pk", "1"), ("nonEmpty", "e1"), ("uniq", "u1")]), none⟩] :=
  ⟨⟨by decide, quietTable_neverFails⟩,
    Delete_events quietTable ["nonEmpty"] ["uniq"] ∅ (by decide) quietTable_neverFails,
    by decide⟩

/-- C19. Insert events: on a table in a valid state whose triggers never fail, a
successful Insert makes one Insert(row, nil) call per new row, in input order, to
every trigger in registration order, and no other call: no Update, no Delete,
nothing for a row that was already stored. -/
theorem Insert_events (st : stable) (nonEmptyFields uniqFields : List String)
    (new : List Row) (hv : st.valid nonEmptyFields uniqFields)
    (hq : ∀ t ∈ st.triggers, t.neverFails) (hok : (st.Insert new).2.2 = none) :
    (st.Insert new).1.calls =
      st.calls ++ broadcast st.triggers.length
        (new.map (fun row => ⟨OperationInsert, some row, none⟩)) := by
  unfold stable.Insert at hok ⊢
  rw [insert_eq] at hok ⊢
  cases hn : st.validateRows new with
  | some err => rw [hn] at hok; simp at hok
  | none =>
    rw [hn] at hok
    cases hc : (st.commit (st.rows ++ new)).2 with
    | some err => rw [hc] at hok; simp at hok
    | none =>
      have hfull := (commit_rows_of_ok st _ hc).2
      have hd := valid_pk_pairwise st _ _ _ hv hfull
      simp only
      rw [commit_of_valid st _ hfull, runTriggers_neverFails st _ _ hq,
        eventsSpec_insert _ st.rows new hd]

/-- Inserting one row into the quiet table. -/
theorem Insert_events_witness :
    (quietTable.valid ["nonEmpty"] ["uniq"] ∧ (∀ t ∈ quietTable.triggers, t.neverFails) ∧
      (quietTable.Insert [Row.ofList [("pk", "2"), ("nonEmpty", "e2"), ("uniq", "u2")]]).2.2
        = none) ∧
      (quietTable.Insert [Row.ofList [("pk", "2"), ("nonEmpty", "e2"), ("uniq", "u2")]]).1.calls =
        quietTable.calls ++ broadcast quietTable.triggers.length
          ([Row.ofList [("pk", "2"), ("nonEmpty", "e2"), ("uniq", "u2")]].map
            (fun row => ⟨OperationInsert, some row, none⟩)) :=
  ⟨⟨by decide, quietTable_neverFails, by decide⟩,
    Insert_events quietTable ["nonEmpty"] ["uniq"] _ (by decide) quietTable_neverFails
      (by decide)⟩

/-- C20. Empty-value validator: for every field and row set the validator
returns an error exactly when some row has the field absent or equal to the
empty string, and the error is "empty value for field" naming the field. -/
theorem valueEmptyValidator_spec (field : String) (rows : List Row) :
    (newValueEmptyValidator field).isValid rows =
      if ∃ row ∈ rows, Finmap.lookup field row = none ∨ Finmap.lookup field row = some ""
      then some ("empty value for field \"" ++ field ++ "\"") else none := by
  show valueEmptyValidator.isValid field rows = _
  induction rows with
  | nil => simp [valueEmptyValidator.isValid]
  | cons row rows ih =>
    unfold valueEmptyValidator.isValid
    by_cases h : Row.val row field = ""
    · rw [if_pos h, if_pos ⟨row, List.mem_cons_self row rows, (val_eq_empty_iff row field).mp h⟩]
      rfl
    · rw [if_neg h, ih]
      have hiff : (∃ r ∈ row :: rows,
          Finmap.lookup field r = none ∨ Finmap.lookup field r = some "") ↔
          (∃ r ∈ rows, Finmap.lookup field r = none ∨ Finmap.lookup field r = some "") := by
        constructor
        · rintro ⟨r, hr, hr2⟩
          rcases List.mem_cons.mp hr with rfl | hr
          · exact absurd ((val_eq_empty_iff r field).mpr hr2) h
          · exact ⟨r, hr, hr2⟩
        · rintro ⟨r, hr, hr2⟩
          exact ⟨r, List.mem_cons_of_mem row hr, hr2⟩
      simp only [hiff]

/-- C21. Duplicate-value validator: for every field and row set the validator
returns an error exactly when two rows at different positions hold the same
non-empty value of the field; the error names the value of the earliest row, in
scan order, whose non-empty value occurs in an earlier row: the rows before it
are free of conflicts. -/
theorem valueDuplicatesValidator_spec (field : String) (rows : List Row) :
    ((newValueDuplicatesValidator field).isValid rows ≠ none ↔
      ∃ (i j : Nat) (hi : i < rows.length) (hj : j < rows.length), i ≠ j ∧
        Row.val rows[i] field ≠ "" ∧ Row.val rows[i] field = Row.val rows[j] field) ∧
    (∀ e, (newValueDuplicatesValidator field).isValid rows = some e →
      ∃ pre row post, rows = pre ++ row :: post ∧
        (∀ (i j : Nat) (hi : i < pre.length) (hj : j < pre.length), i ≠ j →
          Row.val pre[i] field ≠ "" → Row.val pre[i] field ≠ Row.val pre[j] field) ∧
        Row.val row field ≠ "" ∧
        (∃ r ∈ pre, Row.val r field = Row.val row field) ∧
        e = "duplicate value \"" ++ Row.val row field ++ "\" for field \"" ++ field ++ "\"") := by
  constructor
  · show valueDuplicatesValidator.isValid field rows ≠ none ↔ _
    rw [Ne, valueDuplicates_isValid_eq_none, List.pairwise_iff_getElem]
    constructor
    · intro h
      simp only [not_forall] at h
      obtain ⟨i, j, hi, hj, hij, hne, heq⟩ := h
      simp only [ne_eq, Decidable.not_not] at heq
      exact ⟨i, j, hi, hj, Nat.ne_of_lt hij, hne, heq⟩
    · rintro ⟨i, j, hi, hj, hij, hne, heq⟩ h
      rcases Nat.lt_or_gt_of_ne hij with hlt | hgt
      · exact h i j hi hj hlt hne heq
      · exact h j i hj hi hgt (heq ▸ hne) heq.symm
  · intro e he
    obtain ⟨pre, row, post, hs, hpre, hne, hmem, hmsg⟩ :=
      valueDuplicates_loop_eq_some field rows [] e he
    refine ⟨pre, row, post, hs, ?_, hne, ?_, hmsg⟩
    · have hp := (valueDuplicates_isValid_eq_none field pre).mp hpre
      intro i j hi hj hij hv
      rcases Nat.lt_or_gt_of_ne hij with hlt | hgt
      · exact List.pairwise_iff_getElem.mp hp i j hi hj hlt hv
      · intro heq
        exact List.pairwise_iff_getElem.mp hp j i hj hi hgt (heq ▸ hv) heq.symm
    · rcases hmem with hm | hm
      · simp at hm
      · exact hm

/-- C22. Validator order: a table built by NewSTable carries the validators in
the fixed order (primary key empty-value, primary key duplicate-value, the
empty-value validators of the non-empty fields, the duplicate-value validators of
the unique fields, both in declaration order), and for a row set that violates a
constraint validation returns the error of the first validator in that order
that fails. -/
theorem validateRows_first_failing (primaryKeyField : String)
    (nonEmptyFields uniqFields : List String) (st : stable)
    (h : Reachable primaryKeyField nonEmptyFields uniqFields st) (rows : List Row)
    (hbad : ∃ v ∈ st.validators, v.isValid rows ≠ none) :
    st.validators =
        [validator.valueEmptyValidator primaryKeyField,
          validator.valueDuplicatesValidator primaryKeyField]
          ++ nonEmptyFields.map validator.valueEmptyValidator
          ++ uniqFields.map validator.valueDuplicatesValidator ∧
      ∃ pre v post e, st.validators = pre ++ v :: post ∧
        (∀ u ∈ pre, u.isValid rows = none) ∧ v.isValid rows = some e ∧
        st.validateRows rows = some e := by
  obtain ⟨hv, hpk⟩ := Reachable_valid _ _ _ st h
  refine ⟨by rw [hv.2.1, hpk]; rfl, ?_⟩
  cases he : st.validateRows rows with
  | none =>
    unfold stable.validateRows at he
    rw [validateRowsLoop_eq_none] at he
    obtain ⟨v, hv1, hv2⟩ := hbad
    exact absurd (he v hv1) hv2
  | some e =>
    obtain ⟨pre, v, post, hs, hpre, hve⟩ := validateRowsLoop_eq_some rows st.validators e he
    exact ⟨pre, v, post, e, hs, hpre, hve, rfl⟩

/-- A candidate that repeats the key "1" and lacks the non-empty field: the
duplicate key, second in the order, is reported, not the empty value. -/
theorem validateRows_first_failing_witness :
    (Reachable "pk" ["nonEmpty"] ["uniq"] exampleTable ∧
      ∃ v ∈ exampleTable.validators,
        v.isValid (exampleTable.rows ++ exampleClashRows) ≠ none) ∧
      (exampleTable.validators =
          [validator.valueEmptyValidator "pk", validator.valueDuplicatesValidator "pk"]
            ++ ["nonEmpty"].map validator.valueEmptyValidator
            ++ ["uniq"].map validator.valueDuplicatesValidator ∧
        ∃ pre v post e, exampleTable.validators = pre ++ v :: post ∧
          (∀ u ∈ pre, u.isValid (exampleTable.rows ++ exampleClashRows) = none) ∧
          v.isValid (exampleTable.rows ++ exampleClashRows) = some e ∧
          exampleTable.validateRows (exampleTable.rows ++ exampleClashRows) = some e) ∧
      exampleTable.validateRows (exampleTable.rows ++ exampleClashRows) =
        some "duplicate value \"1\" for field \"pk\"" ∧
      (validator.valueEmptyValidator "nonEmpty").isValid (exampleTable.rows ++ exampleClashRows)
        = some "empty value for field \"nonEmpty\"" :=
  ⟨⟨exampleTable_reachable, validator.valueDuplicatesValidator "pk", by decide, by decide⟩,
    validateRows_first_failing "pk" ["nonEmpty"] ["uniq"] exampleTable exampleTable_reachable
      (exampleTable.rows ++ exampleClashRows)
      ⟨validator.valueDuplicatesValidator "pk", by decide, by decide⟩,
    by decide, by decide⟩

/-- C23. Construction: NewSTable fails with "primary key is empty" exactly when
the primary key field is the empty string, whatever the rows; otherwise it
returns a table with the validators of the declaration and no trigger, together
with exactly the error these validators report for the initial rows, and when
they report none the rows of the table are the initial rows in their order. -/
theorem NewSTable_construction (rows : List Row) (primaryKeyField : String)
    (nonEmptyFields uniqFields : List String) :
    ((NewSTable rows primaryKeyField nonEmptyFields uniqFields).2 = some "primary key is empty"
        ↔ primaryKeyField = "") ∧
      (primaryKeyField = "" →
        NewSTable rows primaryKeyField nonEmptyFields uniqFields =
          (none, some "primary key is empty")) ∧
      (primaryKeyField ≠ "" →
        ∃ st, NewSTable rows primaryKeyField nonEmptyFields uniqFields =
            (some st, st.validateRows rows) ∧
          st.primaryKeyField = primaryKeyField ∧
          st.validators = newValidators primaryKeyField nonEmptyFields uniqFields ∧
          st.triggers = [] ∧
          (st.validateRows rows = none → st.rows = rows)) := by
  have hne : primaryKeyField ≠ "" →
      ∃ st, NewSTable rows primaryKeyField nonEmptyFields uniqFields =
          (some st, st.validateRows rows) ∧
        st.primaryKeyField = primaryKeyField ∧
        st.validators = newValidators primaryKeyField nonEmptyFields uniqFields ∧
        st.triggers = [] ∧
        (st.validateRows rows = none → st.rows = rows) := by
    intro hpk
    unfold NewSTable
    rw [if_neg hpk]
    refine ⟨(stable.commit
      { primaryKeyField := primaryKeyField, rows := [],
        validators := newValidators primaryKeyField nonEmptyFields uniqFields,
        triggers := [], calls := [] } rows).1, ?_, commit_primaryKeyField _ _,
      commit_validators _ _, commit_triggers _ _, ?_⟩
    · have herr := commit_err_eq
        { primaryKeyField := primaryKeyField, rows := [],
          validators := newValidators primaryKeyField nonEmptyFields uniqFields,
          triggers := [], calls := [] } rows
      have hrun : (stable.runTriggers
          { primaryKeyField := primaryKeyField, rows := [],
            validators := newValidators primaryKeyField nonEmptyFields uniqFields,
            triggers := [], calls := [] } rows []).2 = none := rfl
      simp only [hrun] at herr
      have hval : stable.validateRows (stable.commit
          { primaryKeyField := primaryKeyField, rows := [],
            validators := newValidators primaryKeyField nonEmptyFields uniqFields,
            triggers := [], calls := [] } rows).1 rows =
          stable.validateRows
            { primaryKeyField := primaryKeyField, rows := [],
              validators := newValidators primaryKeyField nonEmptyFields uniqFields,
              triggers := [], calls := [] } rows := by
        unfold stable.validateRows
        rw [commit_validators]
      rw [hval]
      apply Prod.ext
      · rfl
      · show (stable.commit _ rows).2 = _
        rw [herr]
        cases stable.validateRows
          { primaryKeyField := primaryKeyField, rows := [],
            validators := newValidators primaryKeyField nonEmptyFields uniqFields,
            triggers := [], calls := [] } rows <;> rfl
    · intro hok
      have hok2 : stable.validateRows
          { primaryKeyField := primaryKeyField, rows := [],
            validators := newValidators primaryKeyField nonEmptyFields uniqFields,
            triggers := [], calls := [] } rows = none := by
        unfold stable.validateRows at hok ⊢
        rw [commit_validators] at hok
        exact hok
      have hc := commit_of_valid _ rows hok2
      rw [hc]
      rfl
  have hemp : primaryKeyField = "" →
      NewSTable rows primaryKeyField nonEmptyFields uniqFields =
        (none, some "primary key is empty") := by
    intro hpk
    unfold NewSTable
    rw [if_pos hpk]
  refine ⟨⟨?_, fun hpk => by rw [hemp hpk]⟩, hemp, hne⟩
  intro herr
  by_contra hpk
  obtain ⟨st, hst, _, _, _, _⟩ := hne hpk
  rw [hst] at herr
  exact validateRowsLoop_ne rows st.validators herr

/-- C24. Upsert's affected count: a successful Upsert returns the number of input
rows, whatever number of stored rows it changed or added. -/
theorem Upsert_count (st : stable) (new : List Row) (hok : (st.Upsert new).2.2 = none) :
    (st.Upsert new).2.1 = new.length :=
  (upsert_ok st new hok).2.2

/-- Upserting two rows that change nothing in the concrete table counts two. -/
theorem Upsert_count_witness :
    (exampleTable.Upsert
        [Row.ofList [("pk", "0"), ("nonEmpty", "e0")],
         Row.ofList [("pk", "1"), ("nonEmpty", "e1"), ("uniq", "u1")]]).2.2 = none ∧
      (exampleTable.Upsert
        [Row.ofList [("pk", "0"), ("nonEmpty", "e0")],
         Row.ofList [("pk", "1"), ("nonEmpty", "e1"), ("uniq", "u1")]]).2.1 =
        [Row.ofList [("pk", "0"), ("nonEmpty", "e0")],
         Row.ofList [("pk", "1"), ("nonEmpty", "e1"), ("uniq", "u1")]].length ∧
      (exampleTable.Upsert
        [Row.ofList [("pk", "0"), ("nonEmpty", "e0")],
         Row.ofList [("pk", "1"), ("nonEmpty", "e1"), ("uniq", "u1")]]).1.rows =
        exampleTable.rows :=
  ⟨by decide, Upsert_count exampleTable _ (by decide), by decide⟩

/-- C25. Sequential merge: `mergeRows` handles the incoming rows in order, each
against the base as the earlier ones left it; so two incoming rows that share a
primary-key value no base row has give one appended entry, the first row with
the fields of the second written over it, and the result has one entry for that
key. -/
theorem mergeRows_sequential (st : stable) (rows : List Row) (n1 n2 : Row) (rest : List Row)
    (h1 : ∀ r ∈ rows, Row.val r st.primaryKeyField ≠ Row.val n1 st.primaryKeyField)
    (h2 : Row.val n2 st.primaryKeyField = Row.val n1 st.primaryKeyField) :
    (∀ base a b : List Row,
        st.mergeRows base (a ++ b) = st.mergeRows (st.mergeRows base a) b) ∧
      st.mergeRows rows [n1, n2] = rows ++ [Row.assign n1 n2] ∧
      (∀ field, Finmap.lookup field (Row.assign n1 n2) =
        match Finmap.lookup field n2 with
        | some value => some value
        | none => Finmap.lookup field n1) ∧
      ((st.mergeRows rows [n1, n2]).filter
        (fun r => Row.val r st.primaryKeyField = Row.val n1 st.primaryKeyField)).length = 1 ∧
      st.mergeRows rows (n1 :: n2 :: rest) = st.mergeRows (rows ++ [Row.assign n1 n2]) rest := by
  have hstep : mergeRow st.primaryKeyField n2 (mergeRow st.primaryKeyField n1 rows) =
      rows ++ [Row.assign n1 n2] := by
    rw [mergeRow_of_absent _ n1 rows h1]
    exact mergeRow_append_match _ n2 n1 rows (fun r hr => h2 ▸ h1 r hr) h2.symm
  have htwo : st.mergeRows rows [n1, n2] = rows ++ [Row.assign n1 n2] := by
    show mergeRow st.primaryKeyField n2 (mergeRow st.primaryKeyField n1 rows) = _
    exact hstep
  refine ⟨fun base a b => mergeRows_append st a b base, htwo, lookup_assign n1 n2, ?_, ?_⟩
  · rw [htwo, List.filter_append]
    have hnil : rows.filter
        (fun r => Row.val r st.primaryKeyField = Row.val n1 st.primaryKeyField) = [] := by
      rw [List.filter_eq_nil_iff]
      intro r hr
      simpa using h1 r hr
    rw [hnil]
    simp [val_assign_of_eq n1 n2 _ h2]
  · show st.mergeRows (mergeRow st.primaryKeyField n2 (mergeRow st.primaryKeyField n1 rows)) rest
      = _
    rw [hstep]

/-- Two incoming rows for the new key "2": the later one wins on field "b". -/
theorem mergeRows_sequential_witness :
    ((∀ r ∈ exampleRows, Row.val r exampleTable.primaryKeyField ≠
        Row.val (Row.ofList [("pk", "2"), ("a", "x"), ("b", "y")]) exampleTable.primaryKeyField) ∧
      Row.val (Row.ofList [("pk", "2"), ("b", "z"), ("c", "w")]) exampleTable.primaryKeyField =
        Row.val (Row.ofList [("pk", "2"), ("a", "x"), ("b", "y")]) exampleTable.primaryKeyField) ∧
      exampleTable.mergeRows exampleRows
          [Row.ofList [("pk", "2"), ("a", "x"), ("b", "y")],
           Row.ofList [("pk", "2"), ("b", "z"), ("c", "w")]] =
        exampleRows ++
          [Row.assign (Row.ofList [("pk", "2"), ("a", "x"), ("b", "y")])
            (Row.ofList [("pk", "2"), ("b", "z"), ("c", "w")])] ∧
      exampleTable.mergeRows exampleRows
          [Row.ofList [("pk", "2"), ("a", "x"), ("b", "y")],
           Row.ofList [("pk", "2"), ("b", "z"), ("c", "w")]] =
        [Row.ofList [("pk", "0"), ("nonEmpty", "e0"), ("uniq", "u0")],
         Row.ofList [("pk", "1"), ("nonEmpty", "e1"), ("uniq", "u1")],
         Row.ofList [("pk", "2"), ("a", "x"), ("b", "z"), ("c", "w")]] :=
  ⟨⟨by decide, by decide⟩,
    (mergeRows_sequential exampleTable exampleRows
      (Row.ofList [("pk", "2"), ("a", "x"), ("b", "y")])
      (Row.ofList [("pk", "2"), ("b", "z"), ("c", "w")]) [] (by decide) (by decide)).2.1,
    by decide⟩

/-- C26. Pre-validation does not change the outcome of Insert: Insert succeeds
exactly when the current rows followed by the new rows pass every validator and
trigger dispatch on that candidate succeeds; whenever the full candidate passes
the validators, so do the new rows on their own. -/
theorem Insert_prevalidation_redundant (st : stable) (new : List Row) :
    ((st.Insert new).2.2 = none ↔
        st.validateRows (st.rows ++ new) = none ∧
          (st.runTriggers (st.rows ++ new) st.rows).2 = none) ∧
      (st.validateRows (st.rows ++ new) = none → st.validateRows new = none) := by
  have hsub : st.validateRows (st.rows ++ new) = none → st.validateRows new = none :=
    fun h => validateRows_sublist st (st.rows ++ new) new (List.sublist_append_right _ _) h
  refine ⟨?_, hsub⟩
  show (st.insert new).2.2 = none ↔ _
  rw [insert_err_eq]
  constructor
  · intro h
    cases hn : st.validateRows new with
    | some err => rw [hn] at h; simp at h
    | none =>
      rw [hn] at h
      cases hf : st.validateRows (st.rows ++ new) with
      | some err => rw [hf] at h; simp at h
      | none => rw [hf] at h; exact ⟨rfl, h⟩
  · rintro ⟨hf, ht⟩
    rw [hsub hf, hf]
    exact ht

/-- C27. Delete cannot violate a constraint: on a table in a valid state the
candidate row set of Delete passes every validator, so an error of Delete is an
error returned by a `Handle` call of a registered trigger; with triggers that
never fail, and with no trigger at all, Delete succeeds. -/
theorem Delete_no_constraint_violation (st : stable) (nonEmptyFields uniqFields : List String)
    (whr : Row) (hv : st.valid nonEmptyFields uniqFields) :
    st.validateRows (st.candidateRows (Mutation.Delete whr)) = none ∧
      (∀ e, (st.Delete whr).2.2 = some e →
        ∃ t ∈ st.triggers, ∃ (calls : List HandleCall) (operation : Nat) (new old : Option Row),
          t.Handle calls operation new old = some e) ∧
      ((∀ t ∈ st.triggers, t.neverFails) → (st.Delete whr).2.2 = none) ∧
      (st.triggers = [] → (st.Delete whr).2.2 = none) := by
  have hd := valid_pk_pairwise st _ _ _ hv hv.2.2
  have hcand : st.candidateRows (Mutation.Delete whr) =
      st.rows.filter (fun row => !rowMatches whr row) := by
    show st.deleteRows st.rows (st.selectRows whr) = _
    rw [selectRows_eq_filter, deleteRows_filter st _ st.rows hd]
  have hvalid : st.validateRows (st.candidateRows (Mutation.Delete whr)) = none := by
    rw [hcand]
    exact validateRows_sublist st st.rows _ (List.filter_sublist st.rows) hv.2.2
  have hquiet : (∀ t ∈ st.triggers, t.neverFails) → (st.Delete whr).2.2 = none := by
    intro hq
    unfold stable.Delete
    by_cases hsel : (st.selectRows whr).length = 0
    · unfold stable.delete
      rw [if_pos hsel]
    · rw [delete_neverFails st _ _ whr hv hq hsel]
  refine ⟨hvalid, ?_, hquiet, ?_⟩
  · intro e he
    have herr : (st.commit (st.candidateRows (Mutation.Delete whr))).2 = some e := by
      show (st.commit (st.deleteRows st.rows (st.selectRows whr))).2 = some e
      have he2 : (st.delete whr).2.2 = some e := he
      rw [delete_eq] at he2
      by_cases hsel : (st.selectRows whr).length = 0
      · rw [if_pos hsel] at he2
        simp at he2
      · rw [if_neg hsel] at he2
        cases hc : (st.commit (st.deleteRows st.rows (st.selectRows whr))).2 with
        | some err => rw [hc] at he2; simpa using he2
        | none => rw [hc] at he2; simp at he2
    rw [commit_of_valid st _ hvalid, runTriggers_eq_deliver] at herr
    rcases hdl : deliver (schedule st.triggers (eventsSpec st.primaryKeyField
      (st.candidateRows (Mutation.Delete whr)) st.rows)) st.calls with ⟨calls1, _ | err⟩
    · rw [hdl] at herr; simp at herr
    · rw [hdl] at herr
      have hee : err = e := by simpa using herr
      subst hee
      obtain ⟨done, i, t, ev, rest, hs, hh, _⟩ := deliver_err _ st.calls err (by rw [hdl])
      have hmem : (i, t, ev) ∈ schedule st.triggers (eventsSpec st.primaryKeyField
          (st.candidateRows (Mutation.Delete whr)) st.rows) := by
        rw [hs]; simp
      exact ⟨t, mem_schedule _ _ _ hmem, _, _, _, _, hh⟩
  · intro hno
    exact hquiet (by rw [hno]; intro t ht; simp at ht)

/-- Deleting the row "0" from the concrete table: the remaining row is valid. -/
theorem Delete_no_constraint_violation_witness :
    exampleTable.valid ["nonEmpty"] ["uniq"] ∧
      exampleTable.validateRows
        (exampleTable.candidateRows (Mutation.Delete (Row.ofList [("pk", "0")]))) = none ∧
      exampleTable.candidateRows (Mutation.Delete (Row.ofList [("pk", "0")])) =
        [Row.ofList [("pk", "1"), ("nonEmpty", "e1"), ("uniq", "u1")]] :=
  ⟨by decide,
    (Delete_no_constraint_violation exampleTable ["nonEmpty"] ["uniq"]
      (Row.ofList [("pk", "0")]) (by decide)).1,
    by decide⟩

end Stable
